import Mathlib

/-!
# Verification of `av stack tidy` (cmd/av/stack_tidy.go)

A shallow embedding of `stackTidyCmd.RunE` and `findNonDeletedParents`, followed by
the theorems that settle the properties stated for them.

Modelling conventions.

* A Go `map[string]T` is an association list `List (String × T)`; the order of the
  list is the (unspecified) iteration order of the map.  A Go map has one entry per
  key, which is the hypothesis `KeysNodup` wherever it matters.
* The loop in `findNonDeletedParents` may run forever, so the walk takes a budget of
  advances (`fuel`) and reports `Outcome.outOfFuel` when the budget is used up.
* `branches[k]` on a missing key yields a nil pointer whose dereference panics; this
  is `Outcome.nilDeref`.
* Packages `meta` and `git` are not part of the sources: their records are declared
  here with the fields the source reads, and everything else they hold is carried in
  a type parameter.
-/

namespace StackTidy

/-! ## Data model -/

/-- A Go `error` value. -/
structure GoError where
  msg : String
deriving DecidableEq, Repr

/-- Modelled from the spec: `meta.BranchState`, whose declaration is missing from the
sources.  The two cases of the spec, Trunk and Ref(name), are `Trunk = true` and
`Trunk = false`.  A Trunk state has a name too (the spec writes `parent=main` for a
parent that is the trunk `main`), and the source reads `Name` without looking at `Trunk`
(line 54) as well as after testing it (lines 104-105), so `Name` is a field of every
state; `rest` stands for every other field of the record. -/
structure BranchState (ρ : Type) where
  Name : String
  Trunk : Bool
  rest : ρ
deriving DecidableEq, Repr

/-- Modelled from the spec: `meta.Branch`, whose declaration is missing from the
sources.  `Name` is the identifier of the spec, the key under which the store keeps the
record; `Parent` and `MergeCommit` are the fields that the source reads at lines 54, 93,
103 and 105; `rest` stands for every other field of the record. -/
structure Branch (ρ β : Type) where
  Name : String
  Parent : BranchState ρ
  MergeCommit : String
  rest : β
deriving DecidableEq, Repr

/-- The part of `git.Repo` that the source uses: `repo.Git(args...)` returns an output
and an error. -/
structure Repo where
  Git : List String → Except GoError String

/-- A `map[string]meta.Branch` (or `map[string]*meta.Branch`). -/
abbrev BranchMap (ρ β : Type) := List (String × Branch ρ β)

/-- A `map[string]meta.BranchState`. -/
abbrev StateMap (ρ : Type) := List (String × BranchState ρ)

/-- How a possibly diverging, possibly panicking computation ends. -/
inductive Outcome (α : Type) where
  | done (a : α)
  | nilDeref
  | outOfFuel
deriving DecidableEq, Repr

variable {ρ β : Type}

/-- The keys of a map, in iteration order. -/
def keys {α : Type} (m : List (String × α)) : List String := m.map Prod.fst

/-- A Go map holds one entry per key. -/
def KeysNodup {α : Type} (m : List (String × α)) : Prop := (keys m).Nodup

instance {α : Type} (m : List (String × α)) : Decidable (KeysNodup m) :=
  inferInstanceAs (Decidable (keys m).Nodup)

/-- Every record is kept under its own name, as the store does (`SetBranch` files a
record under `Branch.Name`). -/
def WellKeyed (m : BranchMap ρ β) : Prop := ∀ p ∈ m, p.2.Name = p.1

instance (m : BranchMap ρ β) : Decidable (WellKeyed m) :=
  inferInstanceAs (Decidable (∀ p ∈ m, p.2.Name = p.1))

/-! ## `findNonDeletedParents` (lines 87-110) -/

/-- Line 95: `_, err := repo.Git("show-ref", "refs/heads/"+name); err != nil`. -/
def refCheckFails (repo : Repo) (name : String) : Bool :=
  match repo.Git ["show-ref", "refs/heads/" ++ name] with
  | .error _ => true
  | .ok _ => false

/-- Lines 93-98: the test that puts `name` into `deleted`. -/
def isDeleted (repo : Repo) (name : String) (br : Branch ρ β) : Bool :=
  if br.MergeCommit != "" then true
  else if refCheckFails repo name then true
  else false

/-- Lines 91-99: the `deleted` map (all of its values are `true`, so it is the list of
its keys). -/
def deletedSet (repo : Repo) (branches : BranchMap ρ β) : List String :=
  keys (branches.filter (fun p => isDeleted repo p.1 p.2))

/-- Line 104: the loop condition `!state.Trunk && deleted[state.Name]`. -/
def loopCond (deleted : List String) (state : BranchState ρ) : Bool :=
  !state.Trunk && deleted.contains state.Name

/-- Lines 104-106: the loop, started at `state`, with a budget of `fuel` advances. -/
def walk (deleted : List String) (branches : BranchMap ρ β) :
    Nat → BranchState ρ → Outcome (BranchState ρ)
  | 0, state => if loopCond deleted state then .outOfFuel else .done state
  | fuel + 1, state =>
    if loopCond deleted state then
      match branches.lookup state.Name with
      | none => .nilDeref
      | some br => walk deleted branches fuel br.Parent
    else .done state

/-- Lines 103-107: the body of the outer loop for one deleted `name`. -/
def liveParent (deleted : List String) (branches : BranchMap ρ β) (fuel : Nat)
    (name : String) : Outcome (BranchState ρ) :=
  match branches.lookup name with
  | none => .nilDeref
  | some br => walk deleted branches fuel br.Parent

/-- Lines 101-108: the outer loop over the names of `deleted`, building `liveParents`. -/
def resolveAll (deleted : List String) (branches : BranchMap ρ β) (fuel : Nat) :
    List String → Outcome (StateMap ρ)
  | [] => .done []
  | name :: names =>
    match liveParent deleted branches fuel name with
    | .done state =>
      match resolveAll deleted branches fuel names with
      | .done m => .done ((name, state) :: m)
      | .nilDeref => .nilDeref
      | .outOfFuel => .outOfFuel
    | .nilDeref => .nilDeref
    | .outOfFuel => .outOfFuel

/-- Lines 87-110. Every walk gets the budget `fuel`. -/
def findNonDeletedParents (repo : Repo) (branches : BranchMap ρ β) (fuel : Nat) :
    Outcome (StateMap ρ) :=
  resolveAll (deletedSet repo branches) branches fuel (deletedSet repo branches)

/-! ## `stackTidyCmd.RunE` (lines 27-83) -/

/-- Lines 50-56: the body of the first loop for one entry of `branches`; the value is
the record behind the pointer `br` after the iteration. -/
def reparent (newParents : StateMap ρ) (name : String) (br : Branch ρ β) : Branch ρ β :=
  match newParents.lookup name with
  | some _ => br
  | none =>
    match newParents.lookup br.Parent.Name with
    | some newParent => { br with Parent := newParent }
    | none => br

/-- Lines 49-57: the first loop. -/
def rewriteParents (newParents : StateMap ρ) (branches : BranchMap ρ β) : BranchMap ρ β :=
  branches.map (fun p => (p.1, reparent newParents p.1 p.2))

/-- An operation staged on the write transaction. -/
inductive TxOp (ρ β : Type) where
  | DeleteBranch (name : String)
  | SetBranch (br : Branch ρ β)
deriving DecidableEq, Repr

/-- The states of a write transaction. -/
inductive TxStatus where
  | Open
  | Committed
  | Aborted
deriving DecidableEq, Repr

/-- A call made on the write transaction. -/
inductive TxEvent (ρ β : Type) where
  | AllBranches
  | Stage (op : TxOp ρ β)
  | Commit
  | Abort
deriving DecidableEq, Repr

/-- Modelled from the spec: the store's `DeleteBranch(name)`, which is missing from the
sources; the record kept under `name` is removed. -/
def eraseBranch (name : String) (m : BranchMap ρ β) : BranchMap ρ β :=
  m.filter (fun p => p.1 != name)

/-- Modelled from the spec: the store's `SetBranch(Branch)`, which is missing from the
sources; the record is filed under its `Name`, replacing the one kept there if any. -/
def putBranch (br : Branch ρ β) : BranchMap ρ β → BranchMap ρ β
  | [] => [(br.Name, br)]
  | p :: m => if p.1 == br.Name then (br.Name, br) :: m else p :: putBranch br m

/-- The effect of one staged operation on the store. -/
def applyOp (m : BranchMap ρ β) : TxOp ρ β → BranchMap ρ β
  | .DeleteBranch name => eraseBranch name m
  | .SetBranch br => putBranch br m

/-- The effect of the staged operations, in the order they were staged. -/
def applyOps (m : BranchMap ρ β) (ops : List (TxOp ρ β)) : BranchMap ρ β :=
  ops.foldl applyOp m

/-- Modelled from the spec: the write transaction `db.WriteTx()`, which is missing from
the sources.  It is the state machine Open/Committed/Aborted of the spec: `store` is
what a reader of the metadata store sees, `staged` the operations issued so far, which
reach `store` only through a successful `Commit`; `log` records the calls made. -/
structure WriteTx (ρ β : Type) where
  status : TxStatus
  store : BranchMap ρ β
  staged : List (TxOp ρ β)
  log : List (TxEvent ρ β)
deriving DecidableEq, Repr

/-- Modelled from the spec: `db.WriteTx()` opens a transaction on the store. -/
def WriteTx.start (store : BranchMap ρ β) : WriteTx ρ β :=
  { status := .Open, store := store, staged := [], log := [] }

/-- Modelled from the spec: `tx.AllBranches()` returns a copy of the store. -/
def WriteTx.AllBranches (tx : WriteTx ρ β) : BranchMap ρ β × WriteTx ρ β :=
  (tx.store, { tx with log := tx.log ++ [.AllBranches] })

/-- Modelled from the spec: `tx.DeleteBranch(name)` stages a deletion. -/
def WriteTx.DeleteBranch (tx : WriteTx ρ β) (name : String) : WriteTx ρ β :=
  { tx with staged := tx.staged ++ [.DeleteBranch name],
            log := tx.log ++ [.Stage (.DeleteBranch name)] }

/-- Modelled from the spec: `tx.SetBranch(br)` stages a write. -/
def WriteTx.SetBranch (tx : WriteTx ρ β) (br : Branch ρ β) : WriteTx ρ β :=
  { tx with staged := tx.staged ++ [.SetBranch br],
            log := tx.log ++ [.Stage (.SetBranch br)] }

/-- Modelled from the spec: `tx.Commit()`.  `failure` is the error with which the
transaction layer rejects the write, if it does.  On success every staged operation
becomes visible at once; on failure none does and the transaction stays open. -/
def WriteTx.Commit (tx : WriteTx ρ β) (failure : Option GoError) :
    Option GoError × WriteTx ρ β :=
  match tx.status, failure with
  | .Open, none =>
    (none, { tx with status := .Committed, store := applyOps tx.store tx.staged,
                     log := tx.log ++ [.Commit] })
  | _, _ => (failure, { tx with log := tx.log ++ [.Commit] })

/-- Modelled from the spec: `tx.Abort()`, a no-op on the state once the transaction is
not open. -/
def WriteTx.Abort (tx : WriteTx ρ β) : WriteTx ρ β :=
  match tx.status with
  | .Open => { tx with status := .Aborted, log := tx.log ++ [.Abort] }
  | _ => { tx with log := tx.log ++ [.Abort] }

/-- Lines 61-66: the body of the second loop for one entry; the state is the
transaction and `nDeleted`. -/
def stageStep (newParents : StateMap ρ) (acc : WriteTx ρ β × Nat)
    (p : String × Branch ρ β) : WriteTx ρ β × Nat :=
  match newParents.lookup p.1 with
  | some _ => (acc.1.DeleteBranch p.1, acc.2 + 1)
  | none => (acc.1.SetBranch p.2, acc.2)

/-- Lines 59-67: the second loop, from `nDeleted := 0`. -/
def stage (newParents : StateMap ρ) (tx : WriteTx ρ β) (branches : BranchMap ρ β) :
    WriteTx ρ β × Nat :=
  branches.foldl (stageStep newParents) (tx, 0)

/-- What lines 73-81 print on stderr. -/
inductive Message where
  | Tidied (n : Nat)
  | NoBranchesToTidy
deriving DecidableEq, Repr

/-- What a run that returns leaves behind: the returned error, the message printed,
the transaction after the deferred `tx.Abort()` (if one was opened) and the value of
`nDeleted` (if the run got to line 59). -/
structure RunResult (ρ β : Type) where
  err : Option GoError
  output : Option Message
  tx : Option (WriteTx ρ β)
  nDeleted : Option Nat
deriving DecidableEq, Repr

/-- Lines 27-83.  `getRepo` and `getDB` are the results of the two helper calls,
`commitFailure` the error that `tx.Commit()` is going to return (if any), and `fuel`
the budget of every ancestor walk. -/
def RunE (getRepo : Except GoError Repo) (getDB : Repo → Except GoError (BranchMap ρ β))
    (commitFailure : Option GoError) (fuel : Nat) : Outcome (RunResult ρ β) :=
  match getRepo with
  | .error err => .done { err := some err, output := none, tx := none, nDeleted := none }
  | .ok repo =>
    match getDB repo with
    | .error err => .done { err := some err, output := none, tx := none, nDeleted := none }
    | .ok db =>
      let tx := WriteTx.start db
      let (origBranches, tx) := tx.AllBranches
      let branches := origBranches
      match findNonDeletedParents repo branches fuel with
      | .nilDeref => .nilDeref
      | .outOfFuel => .outOfFuel
      | .done newParents =>
        let branches := rewriteParents newParents branches
        let (tx, nDeleted) := stage newParents tx branches
        match tx.Commit commitFailure with
        | (some err, tx) =>
          .done { err := some err, output := none, tx := some tx.Abort,
                  nDeleted := some nDeleted }
        | (none, tx) =>
          .done { err := none,
                  output := some (if nDeleted > 0 then .Tidied nDeleted
                                  else .NoBranchesToTidy),
                  tx := some tx.Abort, nDeleted := some nDeleted }

/-! ## Closed forms used in the statements -/

/-- The operation that lines 61-66 issue for one entry of `branches`. -/
def opFor (newParents : StateMap ρ) (p : String × Branch ρ β) : TxOp ρ β :=
  match newParents.lookup p.1 with
  | some _ => .DeleteBranch p.1
  | none => .SetBranch p.2

/-- Whether a staged operation is a deletion. -/
def TxOp.isDelete : TxOp ρ β → Bool
  | .DeleteBranch _ => true
  | .SetBranch _ => false

/-- The operations that the second loop issues on the rewritten `branches`. -/
def stagedOps (newParents : StateMap ρ) (db : BranchMap ρ β) : List (TxOp ρ β) :=
  (rewriteParents newParents db).map (opFor newParents)

/-- The result of a run whose resolver returned `newParents`, in closed form. -/
def resultOf (db : BranchMap ρ β) (newParents : StateMap ρ)
    (commitFailure : Option GoError) : RunResult ρ β :=
  let ops := stagedOps newParents db
  let n := (ops.filter TxOp.isDelete).length
  { err := commitFailure
    output :=
      match commitFailure with
      | none => some (if n > 0 then .Tidied n else .NoBranchesToTidy)
      | some _ => none
    tx := some
      { status := (match commitFailure with
                   | none => TxStatus.Committed
                   | some _ => TxStatus.Aborted)
        store := (match commitFailure with
                  | none => applyOps db ops
                  | some _ => db)
        staged := ops
        log := TxEvent.AllBranches :: (ops.map TxEvent.Stage ++ [.Commit, .Abort]) }
    nDeleted := some n }

/-! ## Notions used in the statements -/

/-- The name that a staged operation acts on: the name to delete, or the name under
which the record is filed. -/
def TxOp.target : TxOp ρ β → String
  | .DeleteBranch name => name
  | .SetBranch br => br.Name

/-- The `i`-th state of the sequence `state`, parent of the branch that `state` names,
parent of the branch that this one names, and so on; `none` once a named branch is not
a key of `branches`. -/
def ancestorState (branches : BranchMap ρ β) : Nat → BranchState ρ → Option (BranchState ρ)
  | 0, state => some state
  | i + 1, state =>
    match branches.lookup state.Name with
    | none => none
    | some br => ancestorState branches i br.Parent

/-- The edge of a chain: the branch `child` is in `branches` and its parent is a
non-trunk reference to `parent`. -/
def IsChildOf (branches : BranchMap ρ β) (parent child : String) : Prop :=
  ∃ br, branches.lookup child = some br ∧ br.Parent.Trunk = false ∧ br.Parent.Name = parent

/-- Every non-trunk parent names a branch of the map. -/
def NoDangling (m : BranchMap ρ β) : Prop :=
  ∀ p ∈ m, p.2.Parent.Trunk = false → p.2.Parent.Name ∈ keys m

instance (m : BranchMap ρ β) : Decidable (NoDangling m) :=
  inferInstanceAs (Decidable (∀ p ∈ m, p.2.Parent.Trunk = false → p.2.Parent.Name ∈ keys m))

/-- The parent edges are acyclic: some ranking of the names goes down along every
non-trunk parent edge. -/
def Acyclic (m : BranchMap ρ β) : Prop :=
  ∃ rank : String → Nat,
    ∀ p ∈ m, p.2.Parent.Trunk = false → rank p.2.Parent.Name < rank p.1

/-- No Trunk parent state carries the name of a stale branch. -/
def NoTrunkClash (repo : Repo) (m : BranchMap ρ β) : Prop :=
  ∀ p ∈ m, p.2.Parent.Trunk = true → p.2.Parent.Name ∉ deletedSet repo m

instance (repo : Repo) (m : BranchMap ρ β) : Decidable (NoTrunkClash repo m) :=
  inferInstanceAs
    (Decidable (∀ p ∈ m, p.2.Parent.Trunk = true → p.2.Parent.Name ∉ deletedSet repo m))

/-- Whether the parent chain of the branch `name` of `m` comes to a Trunk state within
`n` steps without meeting a branch named in `avoid` (the branch `name` included). -/
def reachesTrunk (m : BranchMap ρ β) (avoid : List String) : Nat → String → Bool
  | 0, _ => false
  | n + 1, name =>
    match m.lookup name with
    | none => false
    | some br =>
      !avoid.contains name && (br.Parent.Trunk || reachesTrunk m avoid n br.Parent.Name)

/-- One advance of the walk, seen from the branch `name`: the name that the parent of
`name` carries, when `name` is a key of `branches` and the condition of line 104 holds
of that parent (it is a non-trunk reference to a name in `deleted`). -/
def staleParent (deleted : List String) (branches : BranchMap ρ β) (name : String) :
    Option String :=
  match branches.lookup name with
  | none => none
  | some br => if loopCond deleted br.Parent then some br.Parent.Name else none

/-- The branch reached from `name` by `n` advances of the walk, if there are that
many. -/
def staleAncestor (deleted : List String) (branches : BranchMap ρ β) :
    Nat → String → Option String
  | 0, name => some name
  | n + 1, name =>
    match staleParent deleted branches name with
    | none => none
    | some p => staleAncestor deleted branches n p

/-- The parent edges between stale branches contain no cycle: no branch is reached from
itself by one or more advances of the walk. -/
def NoStaleCycle (deleted : List String) (branches : BranchMap ρ β) : Prop :=
  ∀ name n, staleAncestor deleted branches (n + 1) name ≠ some name

/-- Whether a call on the transaction stages an operation. -/
def TxEvent.isStage : TxEvent ρ β → Bool
  | .Stage _ => true
  | _ => false

/-! ## Concrete inputs -/

/-- A repository in which `show-ref` fails exactly for the branches named in `missing`. -/
def repoWithout (missing : List String) : Repo :=
  { Git := fun args =>
      match args with
      | ["show-ref", ref] =>
        if missing.any (fun n => "refs/heads/" ++ n == ref) then .error ⟨"exit status 1"⟩
        else .ok ref
      | _ => .error ⟨"unknown command"⟩ }

/-- The trunk state named `n`. -/
def trunkState (n : String) : BranchState Unit := { Name := n, Trunk := true, rest := () }

/-- The state that refers to the branch named `n`. -/
def refState (n : String) : BranchState Unit := { Name := n, Trunk := false, rest := () }

/-- The record of branch `n` with parent `p` and merge commit `mc`. -/
def mkBranch (n : String) (p : BranchState Unit) (mc : String) : Branch Unit Unit :=
  { Name := n, Parent := p, MergeCommit := mc, rest := () }

/-- The entry of a snapshot for the record `mkBranch n p mc`. -/
def entry (n : String) (p : BranchState Unit) (mc : String) : String × Branch Unit Unit :=
  (n, mkBranch n p mc)

/-- The multi-hop example: `A` and `B` merged, `C` live on top of `B`. -/
def multiHop : BranchMap Unit Unit :=
  [entry "A" (trunkState "main") "c0ffee", entry "B" (refState "A") "decade",
   entry "C" (refState "B") ""]

/-- A snapshot with a branch `D` whose ref is gone and a live branch `E`. -/
def refAbsent : BranchMap Unit Unit :=
  [entry "D" (trunkState "main") "", entry "E" (trunkState "main") ""]

/-- A snapshot of two live branches. -/
def allLive : BranchMap Unit Unit :=
  [entry "X" (trunkState "main") "", entry "Y" (refState "X") ""]

/-- A snapshot in which the live branch `B` sits on the trunk `main`, while a merged
branch that is also called `main` is tracked, with parent trunk `master`. -/
def trunkClash : BranchMap Unit Unit :=
  [entry "main" (trunkState "master") "abc", entry "B" (trunkState "main") ""]

/-- A snapshot in which the live branch `B` sits on the trunk `main`, while a merged
branch that is also called `main` is tracked, with parent `B`. -/
def trunkClashLoop : BranchMap Unit Unit :=
  [entry "main" (refState "B") "abc", entry "B" (trunkState "main") ""]

/-- A ranking of the names of `trunkClashLoop` that goes down along its only non-trunk
parent edge, from `main` to `B`. -/
def trunkClashLoopRank (name : String) : Nat :=
  if name = "main" then 1 else 0

/-- A ranking of the names of `multiHop` that goes down along its parent edges. -/
def multiHopRank (name : String) : Nat :=
  if name = "A" then 0 else if name = "B" then 1 else 2

/-- A snapshot in which the branch `D`, whose ref is gone, sits on the trunk `main`,
while the live branch `E` sits on a trunk that is also called `D`. -/
def refAbsentClash : BranchMap Unit Unit :=
  [entry "D" (trunkState "main") "", entry "E" (trunkState "D") ""]

/-- A snapshot in which the merged branch `B` sits between the live branches `A` and
`C`. -/
def midStale : BranchMap Unit Unit :=
  [entry "A" (trunkState "main") "", entry "B" (refState "A") "beef",
   entry "C" (refState "B") ""]

/-- A snapshot in which the merged branches `P` and `Q` are each other's parent. -/
def staleLoop : BranchMap Unit Unit :=
  [entry "P" (refState "Q") "aa", entry "Q" (refState "P") "bb",
   entry "R" (refState "P") ""]

/-- The entries of `multiHop` in another order. -/
def multiHopReordered : BranchMap Unit Unit :=
  [entry "C" (refState "B") "", entry "A" (trunkState "main") "c0ffee",
   entry "B" (refState "A") "decade"]

/-! # Theorems -/

/-! ## Association lists -/

theorem lookup_eq_none_iff {α : Type} (m : List (String × α)) (k : String) :
    m.lookup k = none ↔ k ∉ keys m := by
  induction m with
  | nil => simp [keys]
  | cons p m ih =>
    obtain ⟨a, v⟩ := p
    by_cases h : k = a
    · subst h; simp [List.lookup, keys]
    · have h' : (k == a) = false := by simpa using h
      simp only [List.lookup, h', keys, List.map_cons, List.mem_cons, h, false_or]
      simpa [keys] using ih

theorem lookup_isSome_iff {α : Type} (m : List (String × α)) (k : String) :
    (m.lookup k).isSome = true ↔ k ∈ keys m := by
  cases h : m.lookup k with
  | none => simpa using (lookup_eq_none_iff m k).1 h
  | some v =>
    have : ¬ (k ∉ keys m) := fun hn => by
      rw [(lookup_eq_none_iff m k).2 hn] at h; cases h
    simpa using this

theorem mem_of_lookup {α : Type} {m : List (String × α)} {k : String} {v : α}
    (h : m.lookup k = some v) : (k, v) ∈ m := by
  induction m with
  | nil => simp at h
  | cons p m ih =>
    obtain ⟨a, w⟩ := p
    by_cases hk : k = a
    · subst hk
      simp [List.lookup] at h
      simp [h]
    · have h' : (k == a) = false := by simpa using hk
      simp only [List.lookup, h'] at h
      exact List.mem_cons_of_mem _ (ih h)

theorem mem_keys_of_mem {α : Type} {m : List (String × α)} {k : String} {v : α}
    (h : (k, v) ∈ m) : k ∈ keys m :=
  List.mem_map.2 ⟨(k, v), h, rfl⟩

theorem lookup_of_mem {α : Type} {m : List (String × α)} (hm : KeysNodup m)
    {k : String} {v : α} (h : (k, v) ∈ m) : m.lookup k = some v := by
  induction m with
  | nil => simp at h
  | cons p m ih =>
    obtain ⟨a, w⟩ := p
    have hm' : a ∉ keys m ∧ KeysNodup m := by
      simpa [KeysNodup, keys] using hm
    rcases List.mem_cons.1 h with h | h
    · cases h; simp [List.lookup]
    · have hk : k ≠ a := fun e => hm'.1 (e ▸ mem_keys_of_mem h)
      have h' : (k == a) = false := by simpa using hk
      simp only [List.lookup, h']
      exact ih hm'.2 h

/-! ## The `deleted` map -/

theorem mem_deletedSet_iff (repo : Repo) (branches : BranchMap ρ β) (name : String) :
    name ∈ deletedSet repo branches ↔
      ∃ br, (name, br) ∈ branches ∧ isDeleted repo name br = true := by
  unfold deletedSet keys
  constructor
  · intro h
    obtain ⟨p, hp, rfl⟩ := List.mem_map.1 h
    obtain ⟨hp1, hp2⟩ := List.mem_filter.1 hp
    exact ⟨p.2, hp1, hp2⟩
  · rintro ⟨br, hbr, hd⟩
    exact List.mem_map.2 ⟨(name, br), List.mem_filter.2 ⟨hbr, hd⟩, rfl⟩

theorem mem_deletedSet_of_mem (repo : Repo) {branches : BranchMap ρ β}
    (hm : KeysNodup branches) {name : String} {br : Branch ρ β}
    (h : (name, br) ∈ branches) :
    name ∈ deletedSet repo branches ↔ isDeleted repo name br = true := by
  rw [mem_deletedSet_iff]
  constructor
  · rintro ⟨br', hbr', hd⟩
    have e1 := lookup_of_mem hm h
    have e2 := lookup_of_mem hm hbr'
    rw [e1] at e2
    cases e2
    exact hd
  · intro hd
    exact ⟨br, h, hd⟩

theorem deletedSet_subset_keys (repo : Repo) (branches : BranchMap ρ β) :
    ∀ name ∈ deletedSet repo branches, name ∈ keys branches := by
  intro name h
  obtain ⟨br, hbr, _⟩ := (mem_deletedSet_iff repo branches name).1 h
  exact mem_keys_of_mem hbr

theorem deletedSet_nodup (repo : Repo) {branches : BranchMap ρ β}
    (hm : KeysNodup branches) : (deletedSet repo branches).Nodup := by
  unfold deletedSet keys
  exact (List.Nodup.sublist (List.Sublist.map _ (List.filter_sublist _)) hm)

theorem isDeleted_iff (repo : Repo) (name : String) (br : Branch ρ β) :
    isDeleted repo name br = true ↔
      (br.MergeCommit ≠ "" ∨
        ∃ err, repo.Git ["show-ref", "refs/heads/" ++ name] = .error err) := by
  unfold isDeleted refCheckFails
  by_cases hmc : br.MergeCommit = ""
  · cases hg : repo.Git ["show-ref", "refs/heads/" ++ name] <;> simp [hmc]
  · simp [hmc]

/-! ## The ancestor walk -/

theorem loopCond_iff (deleted : List String) (state : BranchState ρ) :
    loopCond deleted state = true ↔ state.Trunk = false ∧ state.Name ∈ deleted := by
  simp [loopCond]

theorem walk_done_not_loopCond {deleted : List String} {branches : BranchMap ρ β} :
    ∀ {fuel : Nat} {state r : BranchState ρ},
      walk deleted branches fuel state = .done r → loopCond deleted r = false := by
  intro fuel
  induction fuel with
  | zero =>
    intro state r h
    unfold walk at h
    by_cases hc : loopCond deleted state = true
    · simp [hc] at h
    · simp [hc] at h; subst h; simpa using hc
  | succ n ih =>
    intro state r h
    unfold walk at h
    by_cases hc : loopCond deleted state = true
    · simp only [hc, if_true] at h
      cases hl : branches.lookup state.Name with
      | none => simp [hl] at h
      | some br => simp only [hl] at h; exact ih h
    · simp [hc] at h; subst h; simpa using hc

theorem walk_fuel_mono {deleted : List String} {branches : BranchMap ρ β} :
    ∀ {fuel : Nat} (k : Nat) {state r : BranchState ρ},
      walk deleted branches fuel state = .done r →
      walk deleted branches (fuel + k) state = .done r := by
  intro fuel
  induction fuel with
  | zero =>
    intro k state r h
    unfold walk at h
    by_cases hc : loopCond deleted state = true
    · simp [hc] at h
    · simp [hc] at h
      subst h
      cases k <;> simp [walk, hc]
  | succ n ih =>
    intro k state r h
    have e : n + 1 + k = (n + k) + 1 := by omega
    rw [e]
    unfold walk at h ⊢
    by_cases hc : loopCond deleted state = true
    · simp only [hc, if_true] at h ⊢
      cases hl : branches.lookup state.Name with
      | none => simp [hl] at h
      | some br => simp only [hl] at h ⊢; exact ih k h
    · simpa [hc] using h

/-! ## The resolver -/

theorem resolveAll_done_cons {deleted : List String} {branches : BranchMap ρ β}
    {fuel : Nat} {name : String} {names : List String} {np : StateMap ρ}
    (h : resolveAll deleted branches fuel (name :: names) = .done np) :
    ∃ state m, liveParent deleted branches fuel name = .done state ∧
      resolveAll deleted branches fuel names = .done m ∧ np = (name, state) :: m := by
  unfold resolveAll at h
  cases h1 : liveParent deleted branches fuel name with
  | done state =>
    cases h2 : resolveAll deleted branches fuel names with
    | done m =>
      simp only [h1, h2, Outcome.done.injEq] at h
      exact ⟨state, m, rfl, rfl, h.symm⟩
    | nilDeref => simp [h1, h2] at h
    | outOfFuel => simp [h1, h2] at h
  | nilDeref => simp [h1] at h
  | outOfFuel => simp [h1] at h

theorem resolveAll_keys {deleted : List String} {branches : BranchMap ρ β} {fuel : Nat} :
    ∀ {names : List String} {np : StateMap ρ},
      resolveAll deleted branches fuel names = .done np → keys np = names := by
  intro names
  induction names with
  | nil => intro np h; simp [resolveAll] at h; subst h; rfl
  | cons name names ih =>
    intro np h
    obtain ⟨state, m, _, h2, rfl⟩ := resolveAll_done_cons h
    simp [keys] at ih ⊢
    exact ih h2

theorem resolveAll_lookup {deleted : List String} {branches : BranchMap ρ β} {fuel : Nat} :
    ∀ {names : List String} {np : StateMap ρ},
      resolveAll deleted branches fuel names = .done np →
      ∀ n ∈ names, ∃ s, liveParent deleted branches fuel n = .done s ∧
        np.lookup n = some s := by
  intro names
  induction names with
  | nil => intro np _ n hn; simp at hn
  | cons name names ih =>
    intro np h n hn
    obtain ⟨state, m, h1, h2, rfl⟩ := resolveAll_done_cons h
    by_cases e : n = name
    · subst e
      exact ⟨state, h1, by simp [List.lookup]⟩
    · have hn' : n ∈ names := by
        rcases List.mem_cons.1 hn with h | h
        · exact absurd h e
        · exact h
      obtain ⟨s, hs1, hs2⟩ := ih h2 n hn'
      have e' : (n == name) = false := by simpa using e
      exact ⟨s, hs1, by simp only [List.lookup, e']; exact hs2⟩

/-- Building `liveParents` succeeds as soon as every single walk does. -/
theorem resolveAll_done_of_forall {deleted : List String} {branches : BranchMap ρ β}
    {fuel : Nat} :
    ∀ {names : List String},
      (∀ n ∈ names, ∃ s, liveParent deleted branches fuel n = .done s) →
      ∃ np, resolveAll deleted branches fuel names = .done np := by
  intro names
  induction names with
  | nil => intro _; exact ⟨[], rfl⟩
  | cons name names ih =>
    intro h
    obtain ⟨s, hs⟩ := h name (List.mem_cons_self _ _)
    obtain ⟨m, hm⟩ := ih (fun n hn => h n (List.mem_cons_of_mem _ hn))
    exact ⟨(name, s) :: m, by simp [resolveAll, hs, hm]⟩

theorem findNonDeletedParents_keys {repo : Repo} {branches : BranchMap ρ β} {fuel : Nat}
    {np : StateMap ρ} (h : findNonDeletedParents repo branches fuel = .done np) :
    keys np = deletedSet repo branches :=
  resolveAll_keys h

theorem findNonDeletedParents_lookup_isSome {repo : Repo} {branches : BranchMap ρ β}
    {fuel : Nat} {np : StateMap ρ}
    (h : findNonDeletedParents repo branches fuel = .done np) (name : String) :
    (np.lookup name).isSome = true ↔ name ∈ deletedSet repo branches := by
  rw [lookup_isSome_iff, findNonDeletedParents_keys h]

theorem findNonDeletedParents_lookup_none {repo : Repo} {branches : BranchMap ρ β}
    {fuel : Nat} {np : StateMap ρ}
    (h : findNonDeletedParents repo branches fuel = .done np) (name : String) :
    np.lookup name = none ↔ name ∉ deletedSet repo branches := by
  rw [lookup_eq_none_iff, findNonDeletedParents_keys h]

theorem findNonDeletedParents_lookup_some {repo : Repo} {branches : BranchMap ρ β}
    {fuel : Nat} {np : StateMap ρ}
    (h : findNonDeletedParents repo branches fuel = .done np) {name : String}
    (hn : name ∈ deletedSet repo branches) :
    ∃ s, liveParent (deletedSet repo branches) branches fuel name = .done s ∧
      np.lookup name = some s :=
  resolveAll_lookup h name hn

theorem findNonDeletedParents_of_no_deleted {repo : Repo} {branches : BranchMap ρ β}
    (h : deletedSet repo branches = []) (fuel : Nat) :
    findNonDeletedParents repo branches fuel = .done [] := by
  simp [findNonDeletedParents, h, resolveAll]

/-! ## Staging and the run as a whole -/

theorem stage_foldl (np : StateMap ρ) :
    ∀ (l : BranchMap ρ β) (acc : WriteTx ρ β × Nat),
      l.foldl (stageStep np) acc =
        ({ acc.1 with
            staged := acc.1.staged ++ l.map (opFor np)
            log := acc.1.log ++ (l.map (opFor np)).map TxEvent.Stage },
          acc.2 + ((l.map (opFor np)).filter TxOp.isDelete).length) := by
  intro l
  induction l with
  | nil => intro acc; simp
  | cons p l ih =>
    intro acc
    rw [List.foldl_cons, ih]
    cases hp : np.lookup p.1 with
    | none =>
      simp [stageStep, opFor, hp, WriteTx.SetBranch, TxOp.isDelete]
    | some s =>
      simp [stageStep, opFor, hp, WriteTx.DeleteBranch, TxOp.isDelete]
      omega

theorem stage_eq (np : StateMap ρ) (tx : WriteTx ρ β) (l : BranchMap ρ β) :
    stage np tx l =
      ({ tx with
          staged := tx.staged ++ l.map (opFor np)
          log := tx.log ++ (l.map (opFor np)).map TxEvent.Stage },
        ((l.map (opFor np)).filter TxOp.isDelete).length) := by
  unfold stage
  rw [stage_foldl]
  simp

theorem RunE_of_resolved {repo : Repo} (getDB : Repo → Except GoError (BranchMap ρ β))
    {db : BranchMap ρ β} {fuel : Nat} {np : StateMap ρ}
    (hdb : getDB repo = .ok db)
    (hnp : findNonDeletedParents repo db fuel = .done np)
    (commitFailure : Option GoError) :
    RunE (.ok repo) getDB commitFailure fuel = .done (resultOf db np commitFailure) := by
  unfold RunE
  simp only [hdb, WriteTx.AllBranches, hnp, stage_eq]
  cases commitFailure with
  | none =>
    simp [WriteTx.Commit, WriteTx.Abort, WriteTx.start, resultOf, stagedOps, hnp]
  | some e =>
    simp [WriteTx.Commit, WriteTx.Abort, WriteTx.start, resultOf, stagedOps, hnp]

theorem RunE_done_inv {repo : Repo} (getDB : Repo → Except GoError (BranchMap ρ β))
    {db : BranchMap ρ β} {fuel : Nat} {commitFailure : Option GoError}
    {r : RunResult ρ β}
    (hdb : getDB repo = .ok db)
    (h : RunE (.ok repo) getDB commitFailure fuel = .done r) :
    ∃ np, findNonDeletedParents repo db fuel = .done np ∧
      r = resultOf db np commitFailure := by
  cases hnp : findNonDeletedParents repo db fuel with
  | done np =>
    rw [RunE_of_resolved getDB hdb hnp] at h
    exact ⟨np, rfl, by cases h; rfl⟩
  | nilDeref => simp [RunE, hdb, WriteTx.AllBranches, WriteTx.start, hnp] at h
  | outOfFuel => simp [RunE, hdb, WriteTx.AllBranches, WriteTx.start, hnp] at h

/-! ## Classification (C4) -/

/-- C4. A branch of the snapshot is put into `deleted` by `findNonDeletedParents` if and
only if its `MergeCommit` is non-empty or the `show-ref` call for `refs/heads/<name>`
returns an error; a branch with a non-empty `MergeCommit` is in `deleted` whatever the
repository answers. -/
theorem C4_staleness_classification (repo : Repo) (branches : BranchMap ρ β)
    (hm : KeysNodup branches) (name : String) (br : Branch ρ β)
    (h : (name, br) ∈ branches) :
    (name ∈ deletedSet repo branches ↔
      (br.MergeCommit ≠ "" ∨
        ∃ err, repo.Git ["show-ref", "refs/heads/" ++ name] = .error err)) ∧
    (br.MergeCommit ≠ "" → ∀ repo2 : Repo, name ∈ deletedSet repo2 branches) := by
  refine ⟨?_, ?_⟩
  · rw [mem_deletedSet_of_mem _ hm h, isDeleted_iff]
  · intro hmc repo2
    rw [mem_deletedSet_of_mem _ hm h, isDeleted_iff]
    exact Or.inl hmc

theorem C4_staleness_classification_witness :
    KeysNodup multiHop ∧ "A" ∈ deletedSet (repoWithout []) multiHop :=
  ⟨by decide,
   (C4_staleness_classification (repoWithout []) multiHop (by decide) "A"
      (mkBranch "A" (trunkState "main") "c0ffee") (by decide)).2 (by decide)
      (repoWithout [])⟩

/-! ## The staged operations in terms of the classification -/

theorem reparent_of_not_deleted {np : StateMap ρ} {name : String} (br : Branch ρ β)
    (h : np.lookup name = none) :
    reparent np name br =
      match np.lookup br.Parent.Name with
      | some newParent => { br with Parent := newParent }
      | none => br := by
  simp [reparent, h]

theorem reparent_Name (np : StateMap ρ) (name : String) (br : Branch ρ β) :
    (reparent np name br).Name = br.Name := by
  unfold reparent
  cases np.lookup name with
  | some s => rfl
  | none => cases np.lookup br.Parent.Name <;> rfl

theorem reparent_MergeCommit (np : StateMap ρ) (name : String) (br : Branch ρ β) :
    (reparent np name br).MergeCommit = br.MergeCommit := by
  unfold reparent
  cases np.lookup name with
  | some s => rfl
  | none => cases np.lookup br.Parent.Name <;> rfl

theorem reparent_nil (name : String) (br : Branch ρ β) :
    reparent ([] : StateMap ρ) name br = br := by
  simp [reparent, List.lookup]

theorem isDeleted_reparent (repo : Repo) (np : StateMap ρ) (name k : String)
    (br : Branch ρ β) :
    isDeleted repo k (reparent np name br) = isDeleted repo k br := by
  simp [isDeleted, reparent_MergeCommit]

/-- The operations staged by a run, entry by entry of the snapshot. -/
theorem stagedOps_eq {repo : Repo} {db : BranchMap ρ β} {fuel : Nat} {np : StateMap ρ}
    (hm : KeysNodup db) (hnp : findNonDeletedParents repo db fuel = .done np) :
    stagedOps np db =
      db.map (fun p =>
        if isDeleted repo p.1 p.2 = true then TxOp.DeleteBranch p.1
        else TxOp.SetBranch (reparent np p.1 p.2)) := by
  unfold stagedOps rewriteParents
  rw [List.map_map]
  apply List.map_congr_left
  intro p hp
  have hd := mem_deletedSet_of_mem repo hm (show (p.1, p.2) ∈ db from hp)
  by_cases hs : isDeleted repo p.1 p.2 = true
  · have : p.1 ∈ deletedSet repo db := hd.2 hs
    obtain ⟨s, _, hl⟩ := findNonDeletedParents_lookup_some hnp this
    simp [opFor, hl, hs]
  · have : p.1 ∉ deletedSet repo db := fun hh => hs (hd.1 hh)
    have hl := (findNonDeletedParents_lookup_none hnp p.1).2 this
    simp [opFor, hl, hs]

theorem stagedOps_count {repo : Repo} {db : BranchMap ρ β} {fuel : Nat} {np : StateMap ρ}
    (hm : KeysNodup db) (hnp : findNonDeletedParents repo db fuel = .done np) :
    ((stagedOps np db).filter TxOp.isDelete).length =
      (db.filter (fun p => isDeleted repo p.1 p.2)).length := by
  rw [stagedOps_eq hm hnp, List.filter_map, List.length_map]
  congr 1
  apply List.filter_congr
  intro p _
  by_cases hs : isDeleted repo p.1 p.2 = true <;> simp [hs, TxOp.isDelete]

theorem stagedOps_nil (db : BranchMap ρ β) :
    stagedOps ([] : StateMap ρ) db = db.map (fun p => TxOp.SetBranch p.2) := by
  unfold stagedOps rewriteParents
  rw [List.map_map]
  apply List.map_congr_left
  intro p _
  simp [opFor, List.lookup, reparent_nil]
/-! ## The count (C8) -/

/-- C8. On every snapshot (one entry per name) on which the resolver returns, the run
returns, and its `nDeleted` is the number of `DeleteBranch` operations staged on the
transaction, which is the number of stale branches of the snapshot; it is 0 if and only
if no branch of the snapshot is stale; and after a successful commit the count is what
the run reports. -/
theorem C8_count (repo : Repo) (db : BranchMap ρ β) (commitFailure : Option GoError)
    (fuel : Nat) (np : StateMap ρ) (hm : KeysNodup db)
    (hnp : findNonDeletedParents repo db fuel = .done np) :
    ∃ r tx n, RunE (.ok repo) (fun _ => .ok db) commitFailure fuel = .done r ∧
      r.tx = some tx ∧ r.nDeleted = some n ∧
      n = (tx.staged.filter TxOp.isDelete).length ∧
      n = (db.filter (fun p => isDeleted repo p.1 p.2)).length ∧
      (n = 0 ↔ ∀ p ∈ db, isDeleted repo p.1 p.2 = false) ∧
      (commitFailure = none →
        r.output = some (if n > 0 then .Tidied n else .NoBranchesToTidy)) := by
  refine ⟨_, _, _, RunE_of_resolved (fun _ => .ok db) rfl hnp commitFailure,
    rfl, rfl, rfl, ?_, ?_, ?_⟩
  · exact stagedOps_count hm hnp
  · show ((stagedOps np db).filter TxOp.isDelete).length = 0 ↔ _
    rw [stagedOps_count hm hnp, List.length_eq_zero, List.filter_eq_nil_iff]
    constructor
    · intro hh p hp; simpa using hh p hp
    · intro hh p hp; simpa using hh p hp
  · rintro rfl
    rfl

theorem C8_count_witness :
    KeysNodup multiHop ∧
    ∃ r tx n, RunE (.ok (repoWithout [])) (fun _ => .ok multiHop) none 1 = .done r ∧
      r.tx = some tx ∧ r.nDeleted = some n ∧
      n = (tx.staged.filter TxOp.isDelete).length ∧
      n = (multiHop.filter (fun p => isDeleted (repoWithout []) p.1 p.2)).length ∧
      (n = 0 ↔ ∀ p ∈ multiHop, isDeleted (repoWithout []) p.1 p.2 = false) ∧
      ((none : Option GoError) = none →
        r.output = some (if n > 0 then .Tidied n else .NoBranchesToTidy)) :=
  ⟨by decide,
   C8_count (repoWithout []) multiHop none 1
     [("A", trunkState "main"), ("B", trunkState "main")] (by decide) (by decide)⟩

/-! ## Commit failure (C3) -/

/-- C3. Whenever the resolver returns, so that the deletions and writes get staged, and
`tx.Commit()` then returns the error `e`, the run returns that same error `e`, prints
nothing, and leaves the transaction aborted with the store exactly as it was before the
run: a later read of the store, `AllBranches` on a fresh transaction, returns the
branches of the original store, although operations had been staged. -/
theorem C3_atomicity_under_commit_failure (repo : Repo) (db : BranchMap ρ β)
    (e : GoError) (fuel : Nat) (np : StateMap ρ)
    (hnp : findNonDeletedParents repo db fuel = .done np) :
    ∃ r tx, RunE (.ok repo) (fun _ => .ok db) (some e) fuel = .done r ∧
      r.err = some e ∧ r.output = none ∧ r.tx = some tx ∧
      tx.staged = stagedOps np db ∧ tx.status = TxStatus.Aborted ∧ tx.store = db ∧
      (WriteTx.start tx.store).AllBranches.1 = db := by
  refine ⟨_, _, RunE_of_resolved (fun _ => .ok db) rfl hnp (some e),
    rfl, rfl, rfl, rfl, rfl, rfl, rfl⟩

theorem C3_atomicity_under_commit_failure_witness :
    ∃ r tx, RunE (.ok (repoWithout ["D"])) (fun _ => .ok refAbsent)
        (some ⟨"disk full"⟩) 0 = .done r ∧
      r.err = some ⟨"disk full"⟩ ∧ r.output = none ∧ r.tx = some tx ∧
      tx.staged = stagedOps [("D", trunkState "main")] refAbsent ∧
      tx.status = TxStatus.Aborted ∧ tx.store = refAbsent ∧
      (WriteTx.start tx.store).AllBranches.1 = refAbsent :=
  C3_atomicity_under_commit_failure (repoWithout ["D"]) refAbsent ⟨"disk full"⟩ 0
    [("D", trunkState "main")] (by decide)

/-! ## The store after a commit -/

theorem eraseBranch_append_cons (pre suf : BranchMap ρ β) (k : String) (b : Branch ρ β)
    (hpre : k ∉ keys pre) (hsuf : k ∉ keys suf) :
    eraseBranch k (pre ++ (k, b) :: suf) = pre ++ suf := by
  unfold eraseBranch
  rw [List.filter_append, List.filter_cons]
  have h1 : pre.filter (fun p => p.1 != k) = pre := by
    apply List.filter_eq_self.2
    intro p hp
    have : p.1 ≠ k := fun e => hpre (e ▸ mem_keys_of_mem (show (p.1, p.2) ∈ pre from hp))
    simpa using this
  have h2 : suf.filter (fun p => p.1 != k) = suf := by
    apply List.filter_eq_self.2
    intro p hp
    have : p.1 ≠ k := fun e => hsuf (e ▸ mem_keys_of_mem (show (p.1, p.2) ∈ suf from hp))
    simpa using this
  simp [h1, h2]

theorem putBranch_append_cons (pre suf : BranchMap ρ β) (k : String) (b b2 : Branch ρ β)
    (hpre : k ∉ keys pre) (hb : b2.Name = k) :
    putBranch b2 (pre ++ (k, b) :: suf) = pre ++ (k, b2) :: suf := by
  induction pre with
  | nil => simp [putBranch, hb]
  | cons p pre ih =>
    have hp : p.1 ≠ k ∧ k ∉ keys pre := by
      constructor
      · intro e; exact hpre (by simp [keys, e])
      · intro hk; exact hpre (by simp only [keys, List.map_cons, List.mem_cons]; exact Or.inr hk)
    have hne : (p.1 == b2.Name) = false := by simpa [hb] using hp.1
    simp only [List.cons_append, putBranch, hne]
    simp [ih hp.2]

/-- The store that a successful commit leaves, given the classification `stale` and the
rewrite `f` of the surviving records. -/
theorem applyOps_partition (stale : String × Branch ρ β → Bool)
    (f : String × Branch ρ β → Branch ρ β) (hf : ∀ p, (f p).Name = p.2.Name) :
    ∀ (suf pre : BranchMap ρ β), KeysNodup (pre ++ suf) → WellKeyed suf →
      applyOps (pre ++ suf)
          (suf.map (fun p => if stale p = true then TxOp.DeleteBranch p.1
                             else TxOp.SetBranch (f p))) =
        pre ++ (suf.filter (fun p => !stale p)).map (fun p => (p.1, f p)) := by
  intro suf
  induction suf with
  | nil => intro pre _ _; simp [applyOps]
  | cons p suf ih =>
    intro pre hnd hwk
    obtain ⟨k, b⟩ := p
    have hnd' : (keys pre ++ k :: keys suf).Nodup := by
      simpa [KeysNodup, keys] using hnd
    have hk_pre : k ∉ keys pre := by
      intro hk
      exact (List.nodup_append.1 hnd').2.2 hk (List.mem_cons_self _ _)
    have hk_suf : k ∉ keys suf := by
      have := (List.nodup_append.1 hnd').2.1
      exact (List.nodup_cons.1 this).1
    have hwk' : WellKeyed suf := fun q hq => hwk q (List.mem_cons_of_mem _ hq)
    have hname : b.Name = k := hwk (k, b) (List.mem_cons_self _ _)
    by_cases hs : stale (k, b) = true
    · have hnd2 : KeysNodup (pre ++ suf) := by
        have := List.Nodup.sublist
          (List.Sublist.append_left (List.sublist_cons_self k (keys suf)) (keys pre)) hnd'
        simpa [KeysNodup, keys] using this
      simp only [List.map_cons, hs, if_true, applyOps, List.foldl_cons, applyOp]
      rw [eraseBranch_append_cons pre suf k b hk_pre hk_suf]
      have := ih pre hnd2 hwk'
      simp only [applyOps] at this
      rw [this]
      simp [List.filter_cons, hs]
    · have hs' : stale (k, b) = false := by simpa using hs
      have hfn : (f (k, b)).Name = k := by rw [hf]; exact hname
      have hnd2 : KeysNodup ((pre ++ [(k, f (k, b))]) ++ suf) := by
        simpa [KeysNodup, keys] using hnd
      simp only [List.map_cons, hs', applyOps, List.foldl_cons, applyOp,
        Bool.false_eq_true, if_false]
      rw [putBranch_append_cons pre suf k b (f (k, b)) hk_pre hfn]
      have := ih (pre ++ [(k, f (k, b))]) hnd2 hwk'
      simp only [applyOps, List.append_assoc, List.singleton_append] at this
      rw [this]
      simp [List.filter_cons, hs']

/-- The store after a successful commit: the non-stale entries of the snapshot, in
order, each with its rewritten record. -/
theorem applyOps_stagedOps {repo : Repo} {db : BranchMap ρ β} {fuel : Nat}
    {np : StateMap ρ} (hm : KeysNodup db) (hw : WellKeyed db)
    (hnp : findNonDeletedParents repo db fuel = .done np) :
    applyOps db (stagedOps np db) =
      (db.filter (fun p => !isDeleted repo p.1 p.2)).map
        (fun p => (p.1, reparent np p.1 p.2)) := by
  rw [stagedOps_eq hm hnp]
  have := applyOps_partition (fun p : String × Branch ρ β => isDeleted repo p.1 p.2)
    (fun p => reparent np p.1 p.2) (fun p => reparent_Name np p.1 p.2) db [] 
    (by simpa using hm) hw
  simpa using this

theorem deletedSet_eq_nil_iff (repo : Repo) (db : BranchMap ρ β) :
    deletedSet repo db = [] ↔ ∀ p ∈ db, isDeleted repo p.1 p.2 = false := by
  unfold deletedSet keys
  rw [List.map_eq_nil_iff, List.filter_eq_nil_iff]
  constructor
  · intro h p hp; simpa using h p hp
  · intro h p hp; simpa using h p hp

theorem mem_keys_filter_iff {db : BranchMap ρ β} (hm : KeysNodup db) (repo : Repo)
    (name : String) :
    name ∈ keys (db.filter (fun p => !isDeleted repo p.1 p.2)) ↔
      name ∈ keys db ∧ name ∉ deletedSet repo db := by
  constructor
  · intro h
    obtain ⟨p, hp, rfl⟩ := List.mem_map.1 h
    obtain ⟨hp1, hp2⟩ := List.mem_filter.1 hp
    refine ⟨mem_keys_of_mem (show (p.1, p.2) ∈ db from hp1), ?_⟩
    rw [mem_deletedSet_of_mem _ hm (show (p.1, p.2) ∈ db from hp1)]
    simpa using hp2
  · rintro ⟨h1, h2⟩
    obtain ⟨p, hp, rfl⟩ := List.mem_map.1 h1
    rw [mem_deletedSet_of_mem _ hm (show (p.1, p.2) ∈ db from hp)] at h2
    exact List.mem_map.2 ⟨p, List.mem_filter.2 ⟨hp, by simpa using h2⟩, rfl⟩

/-! ## What a run stages, once the resolver has returned -/

/-- On a snapshot (one entry per name, every record kept under its own name) on
which the resolver returns, the run stages exactly one operation per entry of the
snapshot, in iteration order: `DeleteBranch(name)` when the branch is stale and
`SetBranch` of the (possibly rewritten) record otherwise; the names the operations act on
are exactly the names of the snapshot; and after the successful commit the names in the
store are exactly the names of the non-stale branches of the snapshot. -/
theorem partition_of_resolved (repo : Repo) (db : BranchMap ρ β) (fuel : Nat)
    (np : StateMap ρ) (hm : KeysNodup db) (hw : WellKeyed db)
    (hnp : findNonDeletedParents repo db fuel = .done np) :
    ∃ r tx, RunE (.ok repo) (fun _ => .ok db) none fuel = .done r ∧
      r.err = none ∧ r.tx = some tx ∧
      tx.staged = db.map (fun p =>
        if isDeleted repo p.1 p.2 = true then TxOp.DeleteBranch p.1
        else TxOp.SetBranch (reparent np p.1 p.2)) ∧
      tx.staged.map TxOp.target = keys db ∧
      tx.status = TxStatus.Committed ∧
      keys tx.store = keys (db.filter (fun p => !isDeleted repo p.1 p.2)) ∧
      (∀ name, name ∈ keys tx.store ↔ name ∈ keys db ∧ name ∉ deletedSet repo db) := by
  have hkeys : keys (applyOps db (stagedOps np db)) =
      keys (db.filter (fun p => !isDeleted repo p.1 p.2)) := by
    rw [applyOps_stagedOps hm hw hnp]
    simp [keys, List.map_map, Function.comp_def]
  refine ⟨_, _, RunE_of_resolved (fun _ => .ok db) rfl hnp none,
    rfl, rfl, stagedOps_eq hm hnp, ?_, rfl, hkeys, ?_⟩
  · show (stagedOps np db).map TxOp.target = keys db
    rw [stagedOps_eq hm hnp, List.map_map]
    apply List.map_congr_left
    intro p hp
    by_cases hs : isDeleted repo p.1 p.2 = true
    · simp [hs, TxOp.target]
    · simp [hs, TxOp.target, reparent_Name, hw p hp]
  · intro name
    show name ∈ keys (applyOps db (stagedOps np db)) ↔ _
    rw [hkeys]
    exact mem_keys_filter_iff hm repo name

/-! ## The no-op case (C10) -/

/-- C10. On a snapshot (one entry per name, every record kept under its own name) in
which every branch has an empty `MergeCommit` and a ref for which the `show-ref` call
returns no error, the run
returns for every budget, with `nDeleted = 0` and the message "No branches to tidy.";
it stages no deletion, only one `SetBranch` per branch carrying the record of the
snapshot unchanged; and the committed store is the store before the run. -/
theorem C10_no_op (repo : Repo) (db : BranchMap ρ β) (fuel : Nat)
    (hm : KeysNodup db) (hw : WellKeyed db)
    (hlive : ∀ p ∈ db, p.2.MergeCommit = "" ∧ refCheckFails repo p.1 = false) :
    ∃ r tx, RunE (.ok repo) (fun _ => .ok db) none fuel = .done r ∧
      r.err = none ∧ r.nDeleted = some 0 ∧ r.output = some .NoBranchesToTidy ∧
      r.tx = some tx ∧
      tx.staged = db.map (fun p => TxOp.SetBranch p.2) ∧
      tx.status = TxStatus.Committed ∧ tx.store = db := by
  have hnone : ∀ p ∈ db, isDeleted repo p.1 p.2 = false := by
    intro p hp
    obtain ⟨h1, h2⟩ := hlive p hp
    simp [isDeleted, h1, h2]
  have hd : deletedSet repo db = [] := (deletedSet_eq_nil_iff repo db).2 hnone
  have hnp := findNonDeletedParents_of_no_deleted hd fuel
  have hcount : ((stagedOps ([] : StateMap ρ) db).filter TxOp.isDelete).length = 0 := by
    rw [stagedOps_nil, List.length_eq_zero, List.filter_eq_nil_iff]
    intro op hop
    obtain ⟨p, _, rfl⟩ := List.mem_map.1 hop
    simp [TxOp.isDelete]
  have hstore : applyOps db (stagedOps ([] : StateMap ρ) db) = db := by
    rw [applyOps_stagedOps hm hw hnp]
    have hf : db.filter (fun p => !isDeleted repo p.1 p.2) = db := by
      apply List.filter_eq_self.2
      intro p hp
      simp [hnone p hp]
    rw [hf]
    conv_rhs => rw [← List.map_id db]
    apply List.map_congr_left
    intro p _
    simp [reparent_nil]
  refine ⟨_, _, RunE_of_resolved (fun _ => .ok db) rfl hnp none,
    rfl, ?_, ?_, rfl, stagedOps_nil db, rfl, hstore⟩
  · show some ((stagedOps ([] : StateMap ρ) db).filter TxOp.isDelete).length = some 0
    rw [hcount]
  · show some (if ((stagedOps ([] : StateMap ρ) db).filter TxOp.isDelete).length > 0
        then Message.Tidied _ else Message.NoBranchesToTidy) = _
    rw [hcount]
    rfl

theorem C10_no_op_witness :
    KeysNodup allLive ∧ WellKeyed allLive ∧
    ∃ r tx, RunE (.ok (repoWithout [])) (fun _ => .ok allLive) none 0 = .done r ∧
      r.err = none ∧ r.nDeleted = some 0 ∧ r.output = some .NoBranchesToTidy ∧
      r.tx = some tx ∧
      tx.staged = allLive.map (fun p => TxOp.SetBranch p.2) ∧
      tx.status = TxStatus.Committed ∧ tx.store = allLive :=
  ⟨by decide, by decide,
   C10_no_op (repoWithout []) allLive 0 (by decide) (by decide) (by decide)⟩

/-! ## Idempotence of the count (C2) -/

theorem stagedOps_nil_no_delete (db : BranchMap ρ β) :
    (stagedOps ([] : StateMap ρ) db).filter TxOp.isDelete = [] := by
  rw [stagedOps_nil, List.filter_eq_nil_iff]
  intro op hop
  obtain ⟨p, _, rfl⟩ := List.mem_map.1 hop
  simp [TxOp.isDelete]

/-- No branch of the store left by a successful commit is stale. -/
theorem deletedSet_after_commit {repo : Repo} {db : BranchMap ρ β} {fuel : Nat}
    {np : StateMap ρ} (hm : KeysNodup db) (hw : WellKeyed db)
    (hnp : findNonDeletedParents repo db fuel = .done np) :
    deletedSet repo (applyOps db (stagedOps np db)) = [] := by
  rw [applyOps_stagedOps hm hw hnp, deletedSet_eq_nil_iff]
  intro q hq
  obtain ⟨p, hp, rfl⟩ := List.mem_map.1 hq
  have := (List.mem_filter.1 hp).2
  simpa [isDeleted_reparent] using this

/-- C2. Take a snapshot (one entry per name, every record kept under its own name) on
which a first run returns after a successful commit, and run tidy again on the store
that the first run left, with the same repository answers: the second run returns for
every budget, stages no `DeleteBranch`, ends with `nDeleted = 0`, and (when its own
commit succeeds) prints "No branches to tidy.". -/
theorem C2_idempotent_count (repo : Repo) (db : BranchMap ρ β) (fuel : Nat)
    (r1 : RunResult ρ β) (tx1 : WriteTx ρ β) (hm : KeysNodup db) (hw : WellKeyed db)
    (h1 : RunE (.ok repo) (fun _ => .ok db) none fuel = .done r1)
    (htx : r1.tx = some tx1) (commitFailure : Option GoError) (fuel2 : Nat) :
    ∃ r2 tx2, RunE (.ok repo) (fun _ => .ok tx1.store) commitFailure fuel2 = .done r2 ∧
      r2.nDeleted = some 0 ∧ r2.tx = some tx2 ∧
      tx2.staged.filter TxOp.isDelete = [] ∧
      (commitFailure = none → r2.output = some .NoBranchesToTidy) := by
  obtain ⟨np, hnp, rfl⟩ := RunE_done_inv (fun _ => .ok db) rfl h1
  have e : tx1.store = applyOps db (stagedOps np db) := by
    simp only [resultOf, Option.some.injEq] at htx
    rw [← htx]
  have hd : deletedSet repo tx1.store = [] := by
    rw [e]; exact deletedSet_after_commit hm hw hnp
  have hnp2 := findNonDeletedParents_of_no_deleted hd fuel2
  refine ⟨_, _, RunE_of_resolved (fun _ => .ok tx1.store) rfl hnp2 commitFailure,
    ?_, rfl, stagedOps_nil_no_delete _, ?_⟩
  · show some ((stagedOps ([] : StateMap ρ) tx1.store).filter TxOp.isDelete).length = some 0
    rw [stagedOps_nil_no_delete]; rfl
  · rintro rfl
    show some (if ((stagedOps ([] : StateMap ρ) tx1.store).filter TxOp.isDelete).length > 0
        then Message.Tidied _ else Message.NoBranchesToTidy) = _
    rw [stagedOps_nil_no_delete]; rfl

theorem C2_idempotent_count_witness :
    KeysNodup multiHop ∧ WellKeyed multiHop ∧
    RunE (.ok (repoWithout [])) (fun _ => .ok multiHop) none 1 =
      .done (resultOf multiHop [("A", trunkState "main"), ("B", trunkState "main")] none) ∧
    ∃ r2 tx2, RunE (.ok (repoWithout []))
        (fun _ => .ok [entry "C" (trunkState "main") ""]) none 0 = .done r2 ∧
      r2.nDeleted = some 0 ∧ r2.tx = some tx2 ∧
      tx2.staged.filter TxOp.isDelete = [] ∧
      ((none : Option GoError) = none → r2.output = some .NoBranchesToTidy) :=
  ⟨by decide, by decide, by decide,
   C2_idempotent_count (repoWithout []) multiHop 1
     (resultOf multiHop [("A", trunkState "main"), ("B", trunkState "main")] none)
     { status := .Committed, store := [entry "C" (trunkState "main") ""],
       staged := stagedOps [("A", trunkState "main"), ("B", trunkState "main")] multiHop,
       log := TxEvent.AllBranches ::
         ((stagedOps [("A", trunkState "main"), ("B", trunkState "main")] multiHop).map
           TxEvent.Stage ++ [.Commit, .Abort]) }
     (by decide) (by decide) (by decide) (by decide) none 0⟩

/-! ## Nearest live ancestor (C5) -/

/-- A walk that stops has stopped at the first state of the ancestor sequence on which
the loop condition is false. -/
theorem walk_done_spec {deleted : List String} {branches : BranchMap ρ β} :
    ∀ {fuel : Nat} {state r : BranchState ρ},
      walk deleted branches fuel state = .done r →
      ∃ n, n ≤ fuel ∧ ancestorState branches n state = some r ∧
        loopCond deleted r = false ∧
        ∀ i, i < n → ∃ st, ancestorState branches i state = some st ∧
          loopCond deleted st = true := by
  intro fuel
  induction fuel with
  | zero =>
    intro state r h
    have hr := walk_done_not_loopCond h
    unfold walk at h
    by_cases hc : loopCond deleted state = true
    · simp [hc] at h
    · simp [hc] at h
      subst h
      exact ⟨0, le_refl _, rfl, hr, fun i hi => absurd hi (Nat.not_lt_zero i)⟩
  | succ m ih =>
    intro state r h
    have hr := walk_done_not_loopCond h
    unfold walk at h
    by_cases hc : loopCond deleted state = true
    · simp only [hc, if_true] at h
      cases hl : branches.lookup state.Name with
      | none => simp [hl] at h
      | some br =>
        simp only [hl] at h
        obtain ⟨n, hn, hanc, _, hbefore⟩ := ih h
        refine ⟨n + 1, Nat.succ_le_succ hn, by simp [ancestorState, hl, hanc], hr, ?_⟩
        intro i hi
        cases i with
        | zero => exact ⟨state, rfl, hc⟩
        | succ j =>
          obtain ⟨st, hst, hcst⟩ := hbefore j (Nat.lt_of_succ_lt_succ hi)
          exact ⟨st, by simp [ancestorState, hl, hst], hcst⟩
    · simp [hc] at h
      subst h
      exact ⟨0, Nat.zero_le _, rfl, hr, fun i hi => absurd hi (Nat.not_lt_zero i)⟩

/-- C5. Let `s` be a stale branch with record `br` whose walk stops, within the budget,
at the state `r`.  Then `r` is the state that `findNonDeletedParents` records for `s`
whenever it returns, and `r` is the first state of the sequence `br.Parent`, parent of
the branch named by `br.Parent`, ... (it starts at the parent of `s`, not at `s`) that is
Trunk or names a branch that is not stale: it is the state at some position `n` of the
sequence, and every state at a position before `n` is a non-trunk reference to a stale
branch. -/
theorem C5_nearest_live_ancestor (repo : Repo) (branches : BranchMap ρ β) (fuel : Nat)
    (s : String) (br : Branch ρ β) (r : BranchState ρ)
    (hs : s ∈ deletedSet repo branches) (hbr : branches.lookup s = some br)
    (hwalk : walk (deletedSet repo branches) branches fuel br.Parent = .done r) :
    (∀ np, findNonDeletedParents repo branches fuel = .done np → np.lookup s = some r) ∧
    ∃ n, n ≤ fuel ∧ ancestorState branches n br.Parent = some r ∧
      (r.Trunk = true ∨ r.Name ∉ deletedSet repo branches) ∧
      ∀ i, i < n → ∃ st, ancestorState branches i br.Parent = some st ∧
        st.Trunk = false ∧ st.Name ∈ deletedSet repo branches := by
  refine ⟨?_, ?_⟩
  · intro np hnp
    obtain ⟨s2, h1, h2⟩ := findNonDeletedParents_lookup_some hnp hs
    simp only [liveParent, hbr, hwalk, Outcome.done.injEq] at h1
    rw [h2, h1]
  · obtain ⟨n, hn, hanc, hr, hbefore⟩ := walk_done_spec hwalk
    refine ⟨n, hn, hanc, ?_, ?_⟩
    · have : ¬ (r.Trunk = false ∧ r.Name ∈ deletedSet repo branches) := by
        rw [← loopCond_iff]; simp [hr]
      by_cases ht : r.Trunk = true
      · exact Or.inl ht
      · right
        intro hmem
        exact this ⟨by simpa using ht, hmem⟩
    · intro i hi
      obtain ⟨st, hst, hc⟩ := hbefore i hi
      exact ⟨st, hst, (loopCond_iff _ _).1 hc⟩

theorem C5_nearest_live_ancestor_witness :
    findNonDeletedParents (repoWithout []) multiHop 1 =
      .done [("A", trunkState "main"), ("B", trunkState "main")] ∧
    ancestorState multiHop 1 (refState "A") = some (trunkState "main") ∧
    ((∀ np, findNonDeletedParents (repoWithout []) multiHop 1 = .done np →
        np.lookup "B" = some (trunkState "main")) ∧
      ∃ n, n ≤ 1 ∧ ancestorState multiHop n (refState "A") = some (trunkState "main") ∧
        ((trunkState "main").Trunk = true ∨
          (trunkState "main").Name ∉ deletedSet (repoWithout []) multiHop) ∧
        ∀ i, i < n → ∃ st, ancestorState multiHop i (refState "A") = some st ∧
          st.Trunk = false ∧ st.Name ∈ deletedSet (repoWithout []) multiHop) :=
  ⟨by decide, by decide,
   C5_nearest_live_ancestor (repoWithout []) multiHop 1 "B"
     (mkBranch "B" (refState "A") "decade") (trunkState "main")
     (by decide) (by decide) (by decide)⟩

/-! ## Chain reparenting (C9) -/

theorem walk_of_not_loopCond {deleted : List String} (branches : BranchMap ρ β)
    (fuel : Nat) {state : BranchState ρ} (h : loopCond deleted state = false) :
    walk deleted branches fuel state = .done state := by
  cases fuel <;> simp [walk, h]

theorem walk_step {deleted : List String} {branches : BranchMap ρ β}
    (fuel : Nat) {state : BranchState ρ} {br : Branch ρ β}
    (h : loopCond deleted state = true) (hl : branches.lookup state.Name = some br) :
    walk deleted branches (fuel + 1) state = walk deleted branches fuel br.Parent := by
  simp [walk, h, hl]

/-- Along a chain of stale branches every walk ends where the walk of the first
branch of the chain ends. -/
theorem walk_along_chain {deleted : List String} {branches : BranchMap ρ β}
    {t : BranchState ρ} :
    ∀ (rest : List String) (a : String) (n : Nat),
      (∃ br, branches.lookup a = some br ∧
        walk deleted branches n br.Parent = .done t) →
      a ∈ deleted → List.Chain (IsChildOf branches) a rest →
      (∀ x ∈ rest, x ∈ deleted) →
      ∀ x ∈ rest, ∃ br, branches.lookup x = some br ∧
        walk deleted branches (n + rest.length) br.Parent = .done t := by
  intro rest
  induction rest with
  | nil => intro a n _ _ _ _ x hx; simp at hx
  | cons b rest ih =>
    intro a n ha had hch hst x hx
    obtain ⟨hab, hch'⟩ := List.chain_cons.1 hch
    obtain ⟨bra, hla, hwa⟩ := ha
    obtain ⟨brb, hlb, hbt, hbn⟩ := hab
    have hcond : loopCond deleted brb.Parent = true :=
      (loopCond_iff _ _).2 ⟨hbt, hbn ▸ had⟩
    have hwb : walk deleted branches (n + 1) brb.Parent = .done t := by
      rw [walk_step n hcond (hbn ▸ hla)]
      exact hwa
    have hbd : b ∈ deleted := hst b (List.mem_cons_self _ _)
    rcases List.mem_cons.1 hx with rfl | hx'
    · refine ⟨brb, hlb, ?_⟩
      have := walk_fuel_mono rest.length hwb
      simpa [Nat.add_assoc, Nat.add_comm 1] using this
    · have := ih b (n + 1) ⟨brb, hlb, hwb⟩ hbd hch'
        (fun y hy => hst y (List.mem_cons_of_mem _ hy)) x hx'
      simpa [Nat.add_assoc, Nat.add_comm 1] using this

theorem eq_singleton_of_nodup {l : List String} {c : String} (hnd : l.Nodup)
    (hall : ∀ x ∈ l, x = c) (hc : c ∈ l) : l = [c] := by
  match l, hnd, hall, hc with
  | [], _, _, hc => simp at hc
  | [x], _, hall, _ => rw [hall x (List.mem_singleton_self x)]
  | x :: y :: l, hnd, hall, _ =>
    have hx := hall x (List.mem_cons_self _ _)
    have hy := hall y (List.mem_cons_of_mem _ (List.mem_cons_self _ _))
    have : x ≠ y := by
      intro e
      exact (List.nodup_cons.1 hnd).1 (e ▸ List.mem_cons_self _ _)
    exact absurd (hx.trans hy.symm) this

theorem filter_eq_singleton {db : BranchMap ρ β} (hm : KeysNodup db)
    (q : String × Branch ρ β → Bool) {c : String} {bc : Branch ρ β}
    (hc : db.lookup c = some bc) (hq : q (c, bc) = true)
    (hall : ∀ p ∈ db, q p = true → p.1 = c) :
    db.filter q = [(c, bc)] := by
  have hmem : (c, bc) ∈ db.filter q := List.mem_filter.2 ⟨mem_of_lookup hc, hq⟩
  have hnd : (keys (db.filter q)).Nodup :=
    List.Nodup.sublist (List.Sublist.map _ (List.filter_sublist _)) hm
  have hk : keys (db.filter q) = [c] := by
    apply eq_singleton_of_nodup hnd
    · intro x hx
      obtain ⟨p, hp, rfl⟩ := List.mem_map.1 hx
      exact hall p (List.mem_filter.1 hp).1 (List.mem_filter.1 hp).2
    · exact mem_keys_of_mem hmem
  match hf : db.filter q, hk, hmem with
  | [], hk, _ => simp [keys] at hk
  | [p], _, hmem =>
    rw [List.mem_singleton.1 hmem]
  | p :: p2 :: l, hk, _ => simp [keys] at hk

/-- C9. Take a snapshot (one entry per name, every record kept under its own name) that
consists of a chain `a1, ..., ak` of distinct stale branches, where the parent of `a1`
is a Trunk state `t` and the parent of each later branch of the chain is a non-trunk
reference to the branch before it, plus a non-stale branch `c` whose parent is a
non-trunk reference to `ak`.  With a budget of at least `k - 1` advances the run
returns without error, stages `DeleteBranch` for exactly the branches of the chain,
reports the count `k`, and leaves a store that holds only `c`, its record unchanged but
for the parent, which is now `t`. -/
theorem C9_chain_reparenting (repo : Repo) (db : BranchMap ρ β) (a1 : String)
    (rest : List String) (c : String) (t : BranchState ρ) (bc : Branch ρ β) (fuel : Nat)
    (hm : KeysNodup db) (hw : WellKeyed db)
    (hnames : ∀ n ∈ keys db, n ∈ a1 :: rest ∨ n = c)
    (hnd : (a1 :: rest).Nodup)
    (hstale : ∀ a ∈ a1 :: rest, a ∈ deletedSet repo db)
    (ht : t.Trunk = true)
    (h1 : ∃ br, db.lookup a1 = some br ∧ br.Parent = t)
    (hchain : List.Chain' (IsChildOf db) (a1 :: rest))
    (hc : db.lookup c = some bc) (hclive : isDeleted repo c bc = false)
    (hcp : bc.Parent.Trunk = false ∧
      bc.Parent.Name = (a1 :: rest).getLast (List.cons_ne_nil a1 rest))
    (hfuel : rest.length ≤ fuel) :
    ∃ r tx, RunE (.ok repo) (fun _ => .ok db) none fuel = .done r ∧
      r.err = none ∧ r.nDeleted = some (rest.length + 1) ∧
      r.output = some (.Tidied (rest.length + 1)) ∧ r.tx = some tx ∧
      (∀ a, TxOp.DeleteBranch a ∈ tx.staged ↔ a ∈ a1 :: rest) ∧
      tx.store = [(c, { bc with Parent := t })] := by
  have hlt : loopCond (deletedSet repo db) t = false := by simp [loopCond, ht]
  -- every walk from a branch of the chain ends at `t`
  have hwalk : ∀ x ∈ a1 :: rest, liveParent (deletedSet repo db) db fuel x = .done t := by
    obtain ⟨br1, hl1, hp1⟩ := h1
    have h0 : walk (deletedSet repo db) db 0 br1.Parent = .done t := by
      rw [hp1]; exact walk_of_not_loopCond db 0 hlt
    have hfe : rest.length + (fuel - rest.length) = fuel := by omega
    intro x hx
    rcases List.mem_cons.1 hx with rfl | hx'
    · have := walk_fuel_mono fuel h0
      simp only [Nat.zero_add] at this
      simp [liveParent, hl1, this]
    · obtain ⟨br, hl, hwk⟩ := walk_along_chain rest a1 0 ⟨br1, hl1, h0⟩
        (hstale _ (List.mem_cons_self _ _)) hchain
        (fun y hy => hstale y (List.mem_cons_of_mem _ hy)) x hx'
      have := walk_fuel_mono (fuel - rest.length) hwk
      simp only [Nat.zero_add, hfe] at this
      simp [liveParent, hl, this]
  -- the stale branches are exactly the branches of the chain
  have hcnd : c ∉ deletedSet repo db := by
    rw [mem_deletedSet_of_mem _ hm (mem_of_lookup hc), hclive]
    simp
  have hsub : ∀ n ∈ deletedSet repo db, n ∈ a1 :: rest := by
    intro n hn
    rcases hnames n (deletedSet_subset_keys repo db n hn) with h | h
    · exact h
    · exact absurd (h ▸ hn) hcnd
  obtain ⟨np, hnp⟩ : ∃ np, findNonDeletedParents repo db fuel = .done np :=
    resolveAll_done_of_forall (fun n hn => ⟨t, hwalk n (hsub n hn)⟩)
  have hlook : ∀ a ∈ a1 :: rest, np.lookup a = some t := by
    intro a ha
    obtain ⟨s, hs1, hs2⟩ := findNonDeletedParents_lookup_some hnp (hstale a ha)
    rw [hwalk a ha] at hs1
    cases hs1
    exact hs2
  have hlc : np.lookup c = none := (findNonDeletedParents_lookup_none hnp c).2 hcnd
  have hcount : ((stagedOps np db).filter TxOp.isDelete).length = rest.length + 1 := by
    rw [stagedOps_count hm hnp]
    have e1 : (db.filter (fun p => isDeleted repo p.1 p.2)).length =
        (deletedSet repo db).length := by simp [deletedSet, keys]
    rw [e1]
    have hperm : (deletedSet repo db).Perm (a1 :: rest) :=
      (List.perm_ext_iff_of_nodup (deletedSet_nodup repo hm) hnd).2
        (fun a => ⟨hsub a, hstale a⟩)
    simpa using hperm.length_eq
  have hstore : applyOps db (stagedOps np db) = [(c, { bc with Parent := t })] := by
    rw [applyOps_stagedOps hm hw hnp]
    have hf : db.filter (fun p => !isDeleted repo p.1 p.2) = [(c, bc)] := by
      apply filter_eq_singleton hm _ hc (by simp [hclive])
      intro p hp hq
      rcases hnames p.1 (mem_keys_of_mem (show (p.1, p.2) ∈ db from hp)) with h | h
      · have := (mem_deletedSet_of_mem _ hm (show (p.1, p.2) ∈ db from hp)).1 (hstale _ h)
        simp [this] at hq
      · exact h
    have hlast : np.lookup bc.Parent.Name = some t := by
      rw [hcp.2]
      exact hlook _ (List.getLast_mem _)
    rw [hf]
    simp [reparent, hlc, hlast]
  refine ⟨_, _, RunE_of_resolved (fun _ => .ok db) rfl hnp none,
    rfl, ?_, ?_, rfl, ?_, hstore⟩
  · show some ((stagedOps np db).filter TxOp.isDelete).length = _
    rw [hcount]
  · show some (if ((stagedOps np db).filter TxOp.isDelete).length > 0
        then Message.Tidied _ else Message.NoBranchesToTidy) = _
    rw [hcount]
    simp
  · intro a
    show TxOp.DeleteBranch a ∈ stagedOps np db ↔ _
    rw [stagedOps_eq hm hnp, List.mem_map]
    constructor
    · rintro ⟨p, hp, he⟩
      by_cases hs : isDeleted repo p.1 p.2 = true
      · simp only [hs, if_true, TxOp.DeleteBranch.injEq] at he
        subst he
        exact hsub _ ((mem_deletedSet_of_mem _ hm (show (p.1, p.2) ∈ db from hp)).2 hs)
      · simp [hs] at he
    · intro ha
      obtain ⟨br, hbr, hd⟩ := (mem_deletedSet_iff repo db a).1 (hstale a ha)
      exact ⟨(a, br), hbr, by simp [hd]⟩

theorem C9_chain_reparenting_witness :
    ∃ r tx, RunE (.ok (repoWithout [])) (fun _ => .ok multiHop) none 1 = .done r ∧
      r.err = none ∧ r.nDeleted = some 2 ∧ r.output = some (.Tidied 2) ∧
      r.tx = some tx ∧
      (∀ a, TxOp.DeleteBranch a ∈ tx.staged ↔ a ∈ ["A", "B"]) ∧
      tx.store = [("C", mkBranch "C" (trunkState "main") "")] :=
  C9_chain_reparenting (repoWithout []) multiHop "A" ["B"] "C" (trunkState "main")
    (mkBranch "C" (refState "B") "") 1 (by decide) (by decide) (by decide) (by decide)
    (by decide) rfl ⟨mkBranch "A" (trunkState "main") "c0ffee", by decide, rfl⟩
    (List.Chain.cons ⟨mkBranch "B" (refState "A") "decade", by decide, rfl, rfl⟩
      List.Chain.nil)
    (by decide) (by decide) ⟨rfl, rfl⟩ (by decide)

/-! ## The parent rewrite (C6) and reachability (C1) -/

/-- The rewrite of lines 50-56 for a branch that is not stale: the parent becomes the
state recorded for the name its parent carries, if that name is stale, and is kept
otherwise.  Whether the parent is a Trunk state plays no part. -/
theorem reparent_rule {repo : Repo} {db : BranchMap ρ β} {fuel : Nat} {np : StateMap ρ}
    (hnp : findNonDeletedParents repo db fuel = .done np) (name : String)
    (br : Branch ρ β) (hlive : name ∉ deletedSet repo db) :
    (∀ s, np.lookup br.Parent.Name = some s → (reparent np name br).Parent = s) ∧
    (br.Parent.Name ∉ deletedSet repo db → reparent np name br = br) := by
  have hl := (findNonDeletedParents_lookup_none hnp name).2 hlive
  refine ⟨?_, ?_⟩
  · intro s hs
    simp [reparent, hl, hs]
  · intro hp
    have := (findNonDeletedParents_lookup_none hnp br.Parent.Name).2 hp
    simp [reparent, hl, this]

/-- C6, the code at the failing input.  In `trunkClash` the branch `B` is not stale and
its parent is the Trunk state `main`; the run nevertheless writes `B` back with the
parent recorded for the merged branch `main`, the Trunk state `master`. -/
theorem C6_trunk_parent_is_rewritten :
    isDeleted (repoWithout []) "B" (mkBranch "B" (trunkState "main") "") = false ∧
    (mkBranch "B" (trunkState "main") "").Parent.Trunk = true ∧
    findNonDeletedParents (repoWithout []) trunkClash 0 =
      .done [("main", trunkState "master")] ∧
    RunE (.ok (repoWithout [])) (fun _ => .ok trunkClash) none 0 =
      .done
        { err := none
          output := some (.Tidied 1)
          tx := some
            { status := .Committed
              store := [entry "B" (trunkState "master") ""]
              staged := [.DeleteBranch "main",
                         .SetBranch (mkBranch "B" (trunkState "master") "")]
              log := [.AllBranches, .Stage (.DeleteBranch "main"),
                      .Stage (.SetBranch (mkBranch "B" (trunkState "master") "")),
                      .Commit, .Abort] }
          nDeleted := some 1 } ∧
    (mkBranch "B" (trunkState "master") "").Parent ≠
      (mkBranch "B" (trunkState "main") "").Parent := by
  refine ⟨by decide, by decide, by decide, by decide, by decide⟩

/-- C1, the code at the failing input.  In `trunkClashLoop` every non-trunk parent names
a branch of the snapshot, the parent edges are acyclic and every parent chain comes to a
Trunk state; the Trunk parent of the live branch `B` carries the name of the merged
branch `main`.  After the run the store holds the branch `B` alone, with itself as its
parent, and its parent chain never comes to a Trunk state. -/
theorem C1_trunk_unreachable_after_tidy :
    KeysNodup trunkClashLoop ∧ WellKeyed trunkClashLoop ∧ NoDangling trunkClashLoop ∧
    Acyclic trunkClashLoop ∧
    (∀ name ∈ keys trunkClashLoop, reachesTrunk trunkClashLoop [] 2 name = true) ∧
    deletedSet (repoWithout []) trunkClashLoop = ["main"] ∧
    ¬ NoTrunkClash (repoWithout []) trunkClashLoop ∧
    RunE (.ok (repoWithout [])) (fun _ => .ok trunkClashLoop) none 0 =
      .done
        { err := none
          output := some (.Tidied 1)
          tx := some
            { status := .Committed
              store := [entry "B" (refState "B") ""]
              staged := [.DeleteBranch "main",
                         .SetBranch (mkBranch "B" (refState "B") "")]
              log := [.AllBranches, .Stage (.DeleteBranch "main"),
                      .Stage (.SetBranch (mkBranch "B" (refState "B") "")),
                      .Commit, .Abort] }
          nDeleted := some 1 } ∧
    (∀ n, reachesTrunk [entry "B" (refState "B") ""] ["main"] n "B" = false) := by
  refine ⟨by decide, by decide, by decide, ⟨trunkClashLoopRank, by decide⟩, by decide,
    by decide, by decide, by decide, ?_⟩
  intro n
  induction n with
  | zero => rfl
  | succ n ih =>
    have hl : List.lookup "B" [entry "B" (refState "B") ""] =
        some (mkBranch "B" (refState "B") "") := by decide
    have hc : (["main"] : List String).contains "B" = false := by decide
    simp only [reachesTrunk, hl, hc]
    simpa [mkBranch, refState] using ih

/-! ## Reachability when no Trunk state carries the name of a stale branch -/

/-- A property of states that every advance of the walk preserves holds where the
walk stops. -/
theorem walk_invariant {deleted : List String} {branches : BranchMap ρ β}
    (P : BranchState ρ → Prop)
    (hstep : ∀ st br, loopCond deleted st = true → branches.lookup st.Name = some br →
      P st → P br.Parent) :
    ∀ {fuel : Nat} {st r : BranchState ρ},
      walk deleted branches fuel st = .done r → P st → P r := by
  intro fuel
  induction fuel with
  | zero =>
    intro st r h hP
    unfold walk at h
    by_cases hc : loopCond deleted st = true
    · simp [hc] at h
    · simp [hc] at h; exact h ▸ hP
  | succ n ih =>
    intro st r h hP
    unfold walk at h
    by_cases hc : loopCond deleted st = true
    · simp only [hc, if_true] at h
      cases hl : branches.lookup st.Name with
      | none => simp [hl] at h
      | some br => simp only [hl] at h; exact ih h (hstep st br hc hl hP)
    · simp [hc] at h; exact h ▸ hP

theorem lookup_of_mem_deletedSet {repo : Repo} {db : BranchMap ρ β} {name : String}
    (h : name ∈ deletedSet repo db) : ∃ br, db.lookup name = some br := by
  have := (lookup_isSome_iff db name).2 (deletedSet_subset_keys repo db name h)
  exact Option.isSome_iff_exists.1 this

/-- With a ranking that goes down along the parent edges, a walk started at a state of
rank below `N` stops within `N` advances. -/
theorem walk_terminates_of_rank {repo : Repo} {db : BranchMap ρ β} (rank : String → Nat)
    (hrank : ∀ p ∈ db, p.2.Parent.Trunk = false → rank p.2.Parent.Name < rank p.1) :
    ∀ (N : Nat) (st : BranchState ρ), (st.Trunk = false → rank st.Name < N) →
      ∃ r, walk (deletedSet repo db) db N st = .done r := by
  intro N
  induction N with
  | zero =>
    intro st hst
    have : loopCond (deletedSet repo db) st = false := by
      cases ht : st.Trunk with
      | true => simp [loopCond, ht]
      | false => exact absurd (hst ht) (Nat.not_lt_zero _)
    exact ⟨st, by simp [walk, this]⟩
  | succ N ih =>
    intro st hst
    by_cases hc : loopCond (deletedSet repo db) st = true
    · obtain ⟨ht, hmem⟩ := (loopCond_iff _ _).1 hc
      obtain ⟨br, hl⟩ := lookup_of_mem_deletedSet hmem
      have hlt : br.Parent.Trunk = false → rank br.Parent.Name < N := by
        intro hbt
        have := hrank (st.Name, br) (mem_of_lookup hl) hbt
        have := hst ht
        simp only at *
        omega
      obtain ⟨r, hr⟩ := ih br.Parent hlt
      exact ⟨r, by rw [walk_step N hc hl]; exact hr⟩
    · exact ⟨st, walk_of_not_loopCond db (N + 1) (by simpa using hc)⟩

theorem rank_le_sum (rank : String → Nat) :
    ∀ (l : List String) (k : String), k ∈ l → rank k ≤ (l.map rank).sum := by
  intro l
  induction l with
  | nil => intro k hk; simp at hk
  | cons a l ih =>
    intro k hk
    rcases List.mem_cons.1 hk with rfl | h
    · simp
    · have := ih k h
      simp only [List.map_cons, List.sum_cons]
      omega

/-- On an acyclic snapshot the resolver returns, given enough fuel. -/
theorem findNonDeletedParents_terminates {repo : Repo} {db : BranchMap ρ β}
    (hac : Acyclic db) :
    ∃ fuel np, findNonDeletedParents repo db fuel = .done np := by
  obtain ⟨rank, hrank⟩ := hac
  refine ⟨((keys db).map rank).sum, ?_⟩
  apply resolveAll_done_of_forall
  intro n hn
  obtain ⟨br, hl⟩ := lookup_of_mem_deletedSet hn
  have hle := rank_le_sum rank (keys db) n (deletedSet_subset_keys repo db n hn)
  obtain ⟨r, hr⟩ := @walk_terminates_of_rank _ _ repo db rank hrank
    (((keys db).map rank).sum) br.Parent (by
      intro hbt
      have := hrank (n, br) (mem_of_lookup hl) hbt
      simp only at this
      omega)
  exact ⟨r, by simp [liveParent, hl, hr]⟩

theorem lookup_after_commit {repo : Repo} {db : BranchMap ρ β} {fuel : Nat}
    {np : StateMap ρ} (hm : KeysNodup db) (hw : WellKeyed db)
    (hnp : findNonDeletedParents repo db fuel = .done np) {name : String}
    {b : Branch ρ β} (hb : (name, b) ∈ db) (hlive : name ∉ deletedSet repo db) :
    (applyOps db (stagedOps np db)).lookup name = some (reparent np name b) := by
  rw [applyOps_stagedOps hm hw hnp]
  apply lookup_of_mem
  · have : keys ((db.filter (fun p => !isDeleted repo p.1 p.2)).map
        (fun p => (p.1, reparent np p.1 p.2))) =
        keys (db.filter (fun p => !isDeleted repo p.1 p.2)) := by
      simp [keys, List.map_map, Function.comp_def]
    unfold KeysNodup
    rw [this]
    exact List.Nodup.sublist (List.Sublist.map _ (List.filter_sublist _)) hm
  · have hns : isDeleted repo name b = false := by
      have := mt (mem_deletedSet_of_mem repo hm hb).2 hlive
      simpa using this
    exact List.mem_map.2 ⟨(name, b), List.mem_filter.2 ⟨hb, by simp [hns]⟩, rfl⟩

/-- The parent written back for a surviving branch is a Trunk state or names a
surviving branch of lower rank, provided no Trunk state carries a stale name. -/
theorem new_parent_spec {repo : Repo} {db : BranchMap ρ β} {fuel : Nat} {np : StateMap ρ}
    (rank : String → Nat)
    (hrank : ∀ p ∈ db, p.2.Parent.Trunk = false → rank p.2.Parent.Name < rank p.1)
    (hnd : NoDangling db) (hclash : NoTrunkClash repo db)
    (hnp : findNonDeletedParents repo db fuel = .done np) {name : String}
    {b : Branch ρ β} (hb : (name, b) ∈ db) (hlive : name ∉ deletedSet repo db) :
    (reparent np name b).Parent.Trunk = true ∨
      ((reparent np name b).Parent.Name ∈ keys db ∧
        (reparent np name b).Parent.Name ∉ deletedSet repo db ∧
        rank (reparent np name b).Parent.Name < rank name) := by
  by_cases hp : b.Parent.Name ∈ deletedSet repo db
  · -- the parent names a stale branch: the recorded state is written
    have hbt : b.Parent.Trunk = false := by
      cases h : b.Parent.Trunk with
      | false => rfl
      | true => exact absurd hp (hclash (name, b) hb h)
    obtain ⟨s, hs1, hs2⟩ := findNonDeletedParents_lookup_some hnp hp
    have hnew : (reparent np name b).Parent = s := (reparent_rule hnp name b hlive).1 s hs2
    obtain ⟨bp, hlp⟩ := lookup_of_mem_deletedSet hp
    simp only [liveParent, hlp] at hs1
    have hstop := walk_done_not_loopCond hs1
    have hinv := walk_invariant
      (fun st : BranchState ρ => st.Trunk = false →
        st.Name ∈ keys db ∧ rank st.Name < rank b.Parent.Name)
      (by
        intro st br hc hl hP hbt2
        obtain ⟨ht, _⟩ := (loopCond_iff _ _).1 hc
        have hmem := mem_of_lookup hl
        refine ⟨hnd (st.Name, br) hmem hbt2, ?_⟩
        have h1 := hrank (st.Name, br) hmem hbt2
        have h2 := (hP ht).2
        simp only at h1
        omega)
      hs1
      (by
        intro hbt2
        have hmem := mem_of_lookup hlp
        exact ⟨hnd (b.Parent.Name, bp) hmem hbt2, hrank (b.Parent.Name, bp) hmem hbt2⟩)
    rw [hnew]
    cases hst : s.Trunk with
    | true => exact Or.inl rfl
    | false =>
      right
      obtain ⟨h1, h2⟩ := hinv hst
      refine ⟨h1, ?_, ?_⟩
      · intro hmem
        have := (loopCond_iff (deletedSet repo db) s).2 ⟨hst, hmem⟩
        rw [hstop] at this
        cases this
      · have := hrank (name, b) hb hbt
        simp only at this
        omega
  · -- the record is written back unchanged
    rw [(reparent_rule hnp name b hlive).2 hp]
    cases hbt : b.Parent.Trunk with
    | true => exact Or.inl rfl
    | false => exact Or.inr ⟨hnd (name, b) hb hbt, hp, hrank (name, b) hb hbt⟩

/-- Reachability after tidy, for snapshots in which no Trunk parent state carries the
name of a stale branch: if every non-trunk parent names a branch of the snapshot and
the parent edges are acyclic, the run returns (given enough fuel) and, after the
successful commit, the parent chain of every branch in the store comes to a Trunk
state without meeting a branch that was stale before the run. -/
theorem reachability_without_trunk_clash (repo : Repo) (db : BranchMap ρ β)
    (hm : KeysNodup db) (hw : WellKeyed db) (hnd : NoDangling db) (hac : Acyclic db)
    (hclash : NoTrunkClash repo db) :
    ∃ fuel r tx, RunE (.ok repo) (fun _ => .ok db) none fuel = .done r ∧
      r.err = none ∧ r.tx = some tx ∧
      ∀ name ∈ keys tx.store,
        ∃ n, reachesTrunk tx.store (deletedSet repo db) n name = true := by
  obtain ⟨fuel, np, hnp⟩ := @findNonDeletedParents_terminates _ _ repo db hac
  obtain ⟨rank, hrank⟩ := hac
  refine ⟨fuel, _, _, RunE_of_resolved (fun _ => .ok db) rfl hnp none, rfl, rfl, ?_⟩
  show ∀ name ∈ keys (applyOps db (stagedOps np db)), _
  have hkeys : ∀ name, name ∈ keys (applyOps db (stagedOps np db)) ↔
      name ∈ keys db ∧ name ∉ deletedSet repo db := by
    intro name
    rw [applyOps_stagedOps hm hw hnp]
    have : keys ((db.filter (fun p => !isDeleted repo p.1 p.2)).map
        (fun p => (p.1, reparent np p.1 p.2))) =
        keys (db.filter (fun p => !isDeleted repo p.1 p.2)) := by
      simp [keys, List.map_map, Function.comp_def]
    rw [this]
    exact mem_keys_filter_iff hm repo name
  have main : ∀ (N : Nat) (name : String), rank name < N → name ∈ keys db →
      name ∉ deletedSet repo db →
      ∃ n, reachesTrunk (applyOps db (stagedOps np db)) (deletedSet repo db) n name
        = true := by
    intro N
    induction N with
    | zero => intro name h; exact absurd h (Nat.not_lt_zero _)
    | succ N ih =>
      intro name hN hk hlive
      obtain ⟨p, hp, rfl⟩ := List.mem_map.1 hk
      have hb : (p.1, p.2) ∈ db := hp
      have hl := lookup_after_commit hm hw hnp hb hlive
      rcases new_parent_spec rank hrank hnd hclash hnp hb hlive with ht | ⟨h1, h2, h3⟩
      · exact ⟨1, by simp [reachesTrunk, hl, hlive, ht]⟩
      · obtain ⟨n, hn⟩ := ih _ (by omega) h1 h2
        exact ⟨n + 1, by simp [reachesTrunk, hl, hlive, hn]⟩
  intro name hname
  obtain ⟨h1, h2⟩ := (hkeys name).1 hname
  exact main (rank name + 1) name (Nat.lt_succ_self _) h1 h2

theorem reachability_without_trunk_clash_witness :
    ∃ fuel r tx, RunE (.ok (repoWithout [])) (fun _ => .ok multiHop) none fuel = .done r ∧
      r.err = none ∧ r.tx = some tx ∧
      ∀ name ∈ keys tx.store,
        ∃ n, reachesTrunk tx.store (deletedSet (repoWithout []) multiHop) n name = true :=
  reachability_without_trunk_clash (repoWithout []) multiHop (by decide) (by decide)
    (by decide) ⟨multiHopRank, by decide⟩ (by decide)

/-! ## The frame of a run (C11) -/

/-- The rewrite of lines 50-56 touches no field but `Parent`. -/
theorem reparent_frame (np : StateMap ρ) (name : String) (br : Branch ρ β) :
    reparent np name br = { br with Parent := (reparent np name br).Parent } := by
  unfold reparent
  cases np.lookup name with
  | some s => rfl
  | none => cases np.lookup br.Parent.Name <;> rfl

/-- The record written back for a branch that is not stale is the record of the
snapshot whenever the name that its parent carries is not the name of a stale branch. -/
theorem written_record_unchanged {repo : Repo} {db : BranchMap ρ β} {fuel : Nat}
    {np : StateMap ρ} (hm : KeysNodup db)
    (hnp : findNonDeletedParents repo db fuel = .done np) {name : String}
    {br : Branch ρ β} (hb : (name, br) ∈ db) (hlive : isDeleted repo name br = false)
    (hp : br.Parent.Name ∉ deletedSet repo db) :
    TxOp.SetBranch br ∈ stagedOps np db := by
  rw [stagedOps_eq hm hnp]
  have hnd : name ∉ deletedSet repo db := by
    rw [mem_deletedSet_of_mem repo hm hb, hlive]; simp
  exact List.mem_map.2 ⟨(name, br), hb, by simp [hlive, (reparent_rule hnp name br hnd).2 hp]⟩

/-- C11, the code at the failing input.  In `refAbsentClash` the only stale branch is
`D`, whose `MergeCommit` is empty and whose ref is gone, and no branch has a non-trunk
reference to `D` as its parent: `D` has no children.  The branch `E` is not stale and its
parent is a Trunk state.  The run deletes `D` and reports the count 1, but it writes `E`
back with another parent, the Trunk state `main` recorded for `D`. -/
theorem C11_frame_broken_for_trunk_parent :
    deletedSet (repoWithout ["D"]) refAbsentClash = ["D"] ∧
    (∀ p ∈ refAbsentClash, p.2.MergeCommit = "") ∧
    (∀ p ∈ refAbsentClash,
      loopCond (deletedSet (repoWithout ["D"]) refAbsentClash) p.2.Parent = false) ∧
    isDeleted (repoWithout ["D"]) "E" (mkBranch "E" (trunkState "D") "") = false ∧
    (mkBranch "E" (trunkState "D") "").Parent.Trunk = true ∧
    RunE (.ok (repoWithout ["D"])) (fun _ => .ok refAbsentClash) none 0 =
      .done
        { err := none
          output := some (.Tidied 1)
          tx := some
            { status := .Committed
              store := [entry "E" (trunkState "main") ""]
              staged := [.DeleteBranch "D",
                         .SetBranch (mkBranch "E" (trunkState "main") "")]
              log := [.AllBranches, .Stage (.DeleteBranch "D"),
                      .Stage (.SetBranch (mkBranch "E" (trunkState "main") "")),
                      .Commit, .Abort] }
          nDeleted := some 1 } ∧
    mkBranch "E" (trunkState "main") "" ≠ mkBranch "E" (trunkState "D") "" := by
  refine ⟨by decide, by decide, by decide, by decide, by decide, by decide, by decide⟩

/-! ## No dangling parents (C12) -/

/-- Where every non-trunk parent names a branch of the snapshot, the state at which a
walk stops is Trunk or names a branch of the snapshot that is not stale. -/
theorem walk_done_names_survivor {repo : Repo} {db : BranchMap ρ β} (hnd : NoDangling db)
    {fuel : Nat} {st r : BranchState ρ}
    (hst : st.Trunk = false → st.Name ∈ keys db)
    (h : walk (deletedSet repo db) db fuel st = .done r) (hr : r.Trunk = false) :
    r.Name ∈ keys db ∧ r.Name ∉ deletedSet repo db := by
  have hinv := walk_invariant (fun s : BranchState ρ => s.Trunk = false → s.Name ∈ keys db)
    (fun s br _ hl _ hbt => hnd (s.Name, br) (mem_of_lookup hl) hbt) h hst
  refine ⟨hinv hr, ?_⟩
  intro hmem
  have := (loopCond_iff (deletedSet repo db) r).2 ⟨hr, hmem⟩
  rw [walk_done_not_loopCond h] at this
  cases this

/-- The parent written back for a surviving branch is a Trunk state or names a
surviving branch. -/
theorem new_parent_survives {repo : Repo} {db : BranchMap ρ β} {fuel : Nat}
    {np : StateMap ρ} (hnd : NoDangling db)
    (hnp : findNonDeletedParents repo db fuel = .done np) {name : String}
    {b : Branch ρ β} (hb : (name, b) ∈ db) (hlive : name ∉ deletedSet repo db)
    (hnt : (reparent np name b).Parent.Trunk = false) :
    (reparent np name b).Parent.Name ∈ keys db ∧
      (reparent np name b).Parent.Name ∉ deletedSet repo db := by
  by_cases hp : b.Parent.Name ∈ deletedSet repo db
  · obtain ⟨s, hs1, hs2⟩ := findNonDeletedParents_lookup_some hnp hp
    have hnew : (reparent np name b).Parent = s := (reparent_rule hnp name b hlive).1 s hs2
    obtain ⟨bp, hlp⟩ := lookup_of_mem_deletedSet hp
    simp only [liveParent, hlp] at hs1
    rw [hnew] at hnt ⊢
    exact walk_done_names_survivor hnd
      (fun hbt => hnd (b.Parent.Name, bp) (mem_of_lookup hlp) hbt) hs1 hnt
  · rw [(reparent_rule hnp name b hlive).2 hp] at hnt ⊢
    exact ⟨hnd (name, b) hb hnt, hp⟩

/-- C12. On a snapshot (one entry per name, every record kept under its own name) in
which every non-trunk parent names a branch of the snapshot and on which the resolver
returns, the run commits, and in the store it leaves every branch whose parent is not a
Trunk state has a parent that names a branch of that store. -/
theorem C12_no_dangling_preserved (repo : Repo) (db : BranchMap ρ β) (fuel : Nat)
    (np : StateMap ρ) (hm : KeysNodup db) (hw : WellKeyed db) (hnd : NoDangling db)
    (hnp : findNonDeletedParents repo db fuel = .done np) :
    ∃ r tx, RunE (.ok repo) (fun _ => .ok db) none fuel = .done r ∧
      r.err = none ∧ r.tx = some tx ∧ tx.status = TxStatus.Committed ∧
      ∀ p ∈ tx.store, p.2.Parent.Trunk = false → p.2.Parent.Name ∈ keys tx.store := by
  refine ⟨_, _, RunE_of_resolved (fun _ => .ok db) rfl hnp none, rfl, rfl, rfl, ?_⟩
  show ∀ p ∈ applyOps db (stagedOps np db), _
  have hkeys : ∀ name, name ∈ keys (applyOps db (stagedOps np db)) ↔
      name ∈ keys db ∧ name ∉ deletedSet repo db := by
    intro name
    rw [applyOps_stagedOps hm hw hnp]
    have : keys ((db.filter (fun p => !isDeleted repo p.1 p.2)).map
        (fun p => (p.1, reparent np p.1 p.2))) =
        keys (db.filter (fun p => !isDeleted repo p.1 p.2)) := by
      simp [keys, List.map_map, Function.comp_def]
    rw [this]
    exact mem_keys_filter_iff hm repo name
  intro p hp hnt
  rw [hkeys]
  rw [applyOps_stagedOps hm hw hnp] at hp
  obtain ⟨q, hq, rfl⟩ := List.mem_map.1 hp
  obtain ⟨hq1, hq2⟩ := List.mem_filter.1 hq
  have hb : (q.1, q.2) ∈ db := hq1
  have hlive : q.1 ∉ deletedSet repo db := by
    rw [mem_deletedSet_of_mem repo hm hb]
    simpa using hq2
  exact new_parent_survives hnd hnp hb hlive hnt

theorem C12_no_dangling_preserved_witness :
    ∃ r tx, RunE (.ok (repoWithout [])) (fun _ => .ok midStale) none 0 = .done r ∧
      r.err = none ∧ r.tx = some tx ∧ tx.status = TxStatus.Committed ∧
      ∀ p ∈ tx.store, p.2.Parent.Trunk = false → p.2.Parent.Name ∈ keys tx.store :=
  C12_no_dangling_preserved (repoWithout []) midStale 0 [("B", refState "A")]
    (by decide) (by decide) (by decide) (by decide)

/-! ## Lookup safety (C17) -/

theorem walk_ne_nilDeref (repo : Repo) (db : BranchMap ρ β) :
    ∀ (fuel : Nat) (st : BranchState ρ),
      walk (deletedSet repo db) db fuel st ≠ .nilDeref := by
  intro fuel
  induction fuel with
  | zero =>
    intro st
    unfold walk
    by_cases hc : loopCond (deletedSet repo db) st = true <;> simp [hc]
  | succ n ih =>
    intro st
    by_cases hc : loopCond (deletedSet repo db) st = true
    · obtain ⟨br, hl⟩ := lookup_of_mem_deletedSet ((loopCond_iff _ _).1 hc).2
      rw [walk_step n hc hl]
      exact ih br.Parent
    · rw [walk_of_not_loopCond db (n + 1) (by simpa using hc)]
      simp

theorem liveParent_ne_nilDeref (repo : Repo) (db : BranchMap ρ β) (fuel : Nat)
    {name : String} (h : name ∈ deletedSet repo db) :
    liveParent (deletedSet repo db) db fuel name ≠ .nilDeref := by
  obtain ⟨br, hl⟩ := lookup_of_mem_deletedSet h
  simp only [liveParent, hl]
  exact walk_ne_nilDeref repo db fuel br.Parent

theorem resolveAll_ne_nilDeref (repo : Repo) (db : BranchMap ρ β) (fuel : Nat) :
    ∀ (names : List String), (∀ n ∈ names, n ∈ deletedSet repo db) →
      resolveAll (deletedSet repo db) db fuel names ≠ .nilDeref := by
  intro names
  induction names with
  | nil => intro _; simp [resolveAll]
  | cons name names ih =>
    intro h
    have h1 := liveParent_ne_nilDeref repo db fuel (h name (List.mem_cons_self _ _))
    have h2 := ih (fun n hn => h n (List.mem_cons_of_mem _ hn))
    unfold resolveAll
    cases hl : liveParent (deletedSet repo db) db fuel name with
    | done state =>
      cases hr : resolveAll (deletedSet repo db) db fuel names with
      | done m => simp
      | nilDeref => exact absurd hr h2
      | outOfFuel => simp
    | nilDeref => exact absurd hl h1
    | outOfFuel => simp

/-- C17. For every snapshot, with no assumption on its parents, no lookup
`branches[name]` of `findNonDeletedParents` misses: every walk, started at any state,
only looks up names of `deleted`, which are keys of `branches`; the lookup for each name
of `deleted` at line 103 finds a record; and neither the resolver nor the run as a whole
ends in a nil dereference. -/
theorem C17_lookup_safety (repo : Repo) (db : BranchMap ρ β) (fuel : Nat) :
    (∀ name ∈ deletedSet repo db, ∃ br, db.lookup name = some br) ∧
    (∀ st : BranchState ρ, loopCond (deletedSet repo db) st = true →
      ∃ br, db.lookup st.Name = some br) ∧
    (∀ st : BranchState ρ, walk (deletedSet repo db) db fuel st ≠ .nilDeref) ∧
    findNonDeletedParents repo db fuel ≠ .nilDeref ∧
    (∀ commitFailure,
      RunE (.ok repo) (fun _ => .ok db) commitFailure fuel ≠ .nilDeref) := by
  have hres : findNonDeletedParents repo db fuel ≠ .nilDeref :=
    resolveAll_ne_nilDeref repo db fuel _ (fun _ h => h)
  refine ⟨fun name h => lookup_of_mem_deletedSet h,
    fun st hc => lookup_of_mem_deletedSet ((loopCond_iff _ _).1 hc).2,
    walk_ne_nilDeref repo db fuel, hres, ?_⟩
  intro commitFailure
  cases hnp : findNonDeletedParents repo db fuel with
  | done np =>
    rw [RunE_of_resolved (fun _ => .ok db) rfl hnp commitFailure]
    simp
  | nilDeref => exact absurd hnp hres
  | outOfFuel => simp [RunE, WriteTx.AllBranches, WriteTx.start, hnp]

/-! ## Advances of the walk, by name -/

theorem staleParent_eq_some {deleted : List String} {branches : BranchMap ρ β}
    {x y : String} :
    staleParent deleted branches x = some y ↔
      ∃ br, branches.lookup x = some br ∧ loopCond deleted br.Parent = true ∧
        br.Parent.Name = y := by
  unfold staleParent
  cases hl : branches.lookup x with
  | none => simp
  | some br =>
    by_cases hc : loopCond deleted br.Parent = true
    · simp [hc]
    · simp [hc]

theorem staleAncestor_add {deleted : List String} {branches : BranchMap ρ β} :
    ∀ (a b : Nat) (x : String),
      staleAncestor deleted branches (a + b) x =
        (staleAncestor deleted branches a x).bind (staleAncestor deleted branches b) := by
  intro a
  induction a with
  | zero => intro b x; simp [staleAncestor]
  | succ a ih =>
    intro b x
    have e : a + 1 + b = (a + b) + 1 := by omega
    rw [e]
    simp only [staleAncestor]
    cases staleParent deleted branches x with
    | none => simp
    | some p => simpa using ih b p

theorem staleAncestor_one {deleted : List String} {branches : BranchMap ρ β}
    (x : String) :
    staleAncestor deleted branches 1 x = staleParent deleted branches x := by
  simp only [staleAncestor]
  cases staleParent deleted branches x <;> rfl

theorem staleAncestor_succ_of {deleted : List String} {branches : BranchMap ρ β}
    {n : Nat} {v x y : String} (h1 : staleAncestor deleted branches n v = some x)
    (h2 : staleParent deleted branches x = some y) :
    staleAncestor deleted branches (n + 1) v = some y := by
  rw [staleAncestor_add n 1 v, h1]
  simp [staleAncestor_one, h2]

/-! ## Termination of the walk (C13) -/

/-- A walk that has visited `visited` on its way to the branch `x` stops within the
number of stale branches not yet visited, when the stale branches hold no cycle. -/
theorem walk_terminates_of_visited {repo : Repo} {db : BranchMap ρ β}
    (hcyc : NoStaleCycle (deletedSet repo db) db) :
    ∀ (fuel : Nat) (visited : List String) (x : String) (br : Branch ρ β),
      db.lookup x = some br → visited.Nodup →
      (∀ v ∈ visited, v ∈ deletedSet repo db) →
      (∀ v ∈ visited, ∃ n, staleAncestor (deletedSet repo db) db n v = some x) →
      (deletedSet repo db).length ≤ visited.length + fuel →
      ∃ r, walk (deletedSet repo db) db fuel br.Parent = .done r := by
  intro fuel
  induction fuel with
  | zero =>
    intro visited x br hl hnd hsub hreach hlen
    by_cases hc : loopCond (deletedSet repo db) br.Parent = true
    · exfalso
      have hy : br.Parent.Name ∈ deletedSet repo db := ((loopCond_iff _ _).1 hc).2
      have hsp : staleParent (deletedSet repo db) db x = some br.Parent.Name :=
        staleParent_eq_some.2 ⟨br, hl, hc, rfl⟩
      have hnew : br.Parent.Name ∉ visited := by
        intro hmem
        obtain ⟨n, hn⟩ := hreach _ hmem
        exact hcyc _ n (staleAncestor_succ_of hn hsp)
      have hnd2 : (br.Parent.Name :: visited).Nodup := List.nodup_cons.2 ⟨hnew, hnd⟩
      have hsub2 : (br.Parent.Name :: visited) ⊆ deletedSet repo db := by
        intro v hv
        rcases List.mem_cons.1 hv with rfl | hv
        · exact hy
        · exact hsub v hv
      have := (List.subperm_of_subset hnd2 hsub2).length_le
      simp only [List.length_cons] at this
      omega
    · exact ⟨_, walk_of_not_loopCond db 0 (by simpa using hc)⟩
  | succ fuel ih =>
    intro visited x br hl hnd hsub hreach hlen
    by_cases hc : loopCond (deletedSet repo db) br.Parent = true
    · have hy : br.Parent.Name ∈ deletedSet repo db := ((loopCond_iff _ _).1 hc).2
      have hsp : staleParent (deletedSet repo db) db x = some br.Parent.Name :=
        staleParent_eq_some.2 ⟨br, hl, hc, rfl⟩
      have hnew : br.Parent.Name ∉ visited := by
        intro hmem
        obtain ⟨n, hn⟩ := hreach _ hmem
        exact hcyc _ n (staleAncestor_succ_of hn hsp)
      obtain ⟨bry, hly⟩ := lookup_of_mem_deletedSet hy
      rw [walk_step fuel hc hly]
      apply ih (br.Parent.Name :: visited) br.Parent.Name bry hly
        (List.nodup_cons.2 ⟨hnew, hnd⟩)
      · intro v hv
        rcases List.mem_cons.1 hv with rfl | hv
        · exact hy
        · exact hsub v hv
      · intro v hv
        rcases List.mem_cons.1 hv with rfl | hv
        · exact ⟨0, rfl⟩
        · obtain ⟨n, hn⟩ := hreach v hv
          exact ⟨n + 1, staleAncestor_succ_of hn hsp⟩
      · simp only [List.length_cons]; omega
    · exact ⟨_, walk_of_not_loopCond db (fuel + 1) (by simpa using hc)⟩

/-- C13. On a snapshot whose parent edges between stale branches contain no cycle, the
walk for every stale branch `s`, started at the parent of `s`, stops within as many
advances as there are stale branches in the snapshot (indeed within one fewer), and so
the resolver returns with that budget. -/
theorem C13_walk_terminates (repo : Repo) (db : BranchMap ρ β)
    (hcyc : NoStaleCycle (deletedSet repo db) db) :
    (∀ s br, s ∈ deletedSet repo db → db.lookup s = some br →
      ∃ r, walk (deletedSet repo db) db ((deletedSet repo db).length - 1) br.Parent
          = .done r ∧
        walk (deletedSet repo db) db (deletedSet repo db).length br.Parent = .done r) ∧
    ∃ np, findNonDeletedParents repo db (deletedSet repo db).length = .done np := by
  have hwalk : ∀ s br, s ∈ deletedSet repo db → db.lookup s = some br →
      ∃ r, walk (deletedSet repo db) db ((deletedSet repo db).length - 1) br.Parent
          = .done r ∧
        walk (deletedSet repo db) db (deletedSet repo db).length br.Parent = .done r := by
    intro s br hs hl
    have hpos : 0 < (deletedSet repo db).length := List.length_pos_of_mem hs
    obtain ⟨r, hr⟩ := walk_terminates_of_visited hcyc ((deletedSet repo db).length - 1)
      [s] s br hl (List.nodup_singleton s)
      (by intro v hv; rw [List.mem_singleton.1 hv]; exact hs)
      (by intro v hv; rw [List.mem_singleton.1 hv]; exact ⟨0, rfl⟩)
      (by simp only [List.length_singleton]; omega)
    refine ⟨r, hr, ?_⟩
    have := walk_fuel_mono 1 hr
    have e : (deletedSet repo db).length - 1 + 1 = (deletedSet repo db).length := by omega
    rwa [e] at this
  refine ⟨hwalk, ?_⟩
  apply resolveAll_done_of_forall
  intro n hn
  obtain ⟨br, hl⟩ := lookup_of_mem_deletedSet hn
  obtain ⟨r, _, hr⟩ := hwalk n br hn hl
  exact ⟨r, by simp [liveParent, hl, hr]⟩

/-- A ranking that goes down along the parent edges rules out a cycle between stale
branches, whatever the stale branches are. -/
theorem noStaleCycle_of_acyclic {db : BranchMap ρ β} (hac : Acyclic db)
    (deleted : List String) : NoStaleCycle deleted db := by
  obtain ⟨rank, hrank⟩ := hac
  have hdown : ∀ (n : Nat) (x y : String),
      staleAncestor deleted db n x = some y → rank y + n ≤ rank x := by
    intro n
    induction n with
    | zero =>
      intro x y h
      simp only [staleAncestor, Option.some.injEq] at h
      rw [h]; omega
    | succ n ih =>
      intro x y h
      simp only [staleAncestor] at h
      cases hp : staleParent deleted db x with
      | none => simp [hp] at h
      | some p =>
        simp only [hp] at h
        obtain ⟨br, hl, hc, hname⟩ := staleParent_eq_some.1 hp
        have h1 := hrank (x, br) (mem_of_lookup hl) ((loopCond_iff _ _).1 hc).1
        have h2 := ih p y h
        simp only [hname] at h1
        omega
  intro name n h
  have := hdown (n + 1) name name h
  omega

theorem C13_walk_terminates_witness :
    (∀ s br, s ∈ deletedSet (repoWithout []) multiHop → multiHop.lookup s = some br →
      ∃ r, walk (deletedSet (repoWithout []) multiHop) multiHop
            ((deletedSet (repoWithout []) multiHop).length - 1) br.Parent = .done r ∧
        walk (deletedSet (repoWithout []) multiHop) multiHop
            (deletedSet (repoWithout []) multiHop).length br.Parent = .done r) ∧
    ∃ np, findNonDeletedParents (repoWithout []) multiHop
        (deletedSet (repoWithout []) multiHop).length = .done np :=
  C13_walk_terminates (repoWithout []) multiHop
    (noStaleCycle_of_acyclic ⟨multiHopRank, by decide⟩ _)

/-! ## A cycle of stale branches (C14) -/

/-- From a branch on a cycle of stale branches the walk can advance any number of
times. -/
theorem staleAncestor_isSome_of_cycle {deleted : List String} {branches : BranchMap ρ β}
    {c : String} {n : Nat} (hcyc : staleAncestor deleted branches (n + 1) c = some c) :
    ∀ k, (staleAncestor deleted branches k c).isSome = true := by
  have hmul : ∀ m, staleAncestor deleted branches (m * (n + 1)) c = some c := by
    intro m
    induction m with
    | zero => simp [staleAncestor]
    | succ m ih =>
      have e : (m + 1) * (n + 1) = m * (n + 1) + (n + 1) := by ring
      rw [e, staleAncestor_add, ih]
      simpa using hcyc
  intro k
  have hk : k * (n + 1) = k + k * n := by ring
  have h := hmul k
  rw [hk, staleAncestor_add] at h
  cases hs : staleAncestor deleted branches k c with
  | none => simp [hs] at h
  | some y => rfl

theorem staleAncestor_isSome_of_reach {deleted : List String} {branches : BranchMap ρ β}
    {z y : String} {i : Nat}
    (hz : ∀ k, (staleAncestor deleted branches k z).isSome = true)
    (hy : staleAncestor deleted branches i z = some y) :
    ∀ k, (staleAncestor deleted branches k y).isSome = true := by
  intro k
  have := hz (i + k)
  rw [staleAncestor_add, hy] at this
  simpa using this

/-- A walk that can advance any number of times uses up every budget. -/
theorem walk_outOfFuel_of_isSome {deleted : List String} {branches : BranchMap ρ β} :
    ∀ (fuel : Nat) (z : String) (br : Branch ρ β),
      (∀ k, (staleAncestor deleted branches k z).isSome = true) →
      branches.lookup z = some br →
      walk deleted branches fuel br.Parent = .outOfFuel := by
  intro fuel
  induction fuel with
  | zero =>
    intro z br hz hl
    have h1 := hz 1
    rw [staleAncestor_one] at h1
    obtain ⟨y, hy⟩ := Option.isSome_iff_exists.1 h1
    obtain ⟨br2, hl2, hc, _⟩ := staleParent_eq_some.1 hy
    rw [hl] at hl2
    cases hl2
    simp [walk, hc]
  | succ fuel ih =>
    intro z br hz hl
    have h1 := hz 1
    rw [staleAncestor_one] at h1
    obtain ⟨y, hy⟩ := Option.isSome_iff_exists.1 h1
    obtain ⟨br2, hl2, hc, hname⟩ := staleParent_eq_some.1 hy
    rw [hl] at hl2
    cases hl2
    have hzy : ∀ k, (staleAncestor deleted branches k y).isSome = true :=
      staleAncestor_isSome_of_reach hz (by rw [staleAncestor_one]; exact hy)
    have h2 := hzy 1
    rw [staleAncestor_one] at h2
    obtain ⟨w, hw⟩ := Option.isSome_iff_exists.1 h2
    obtain ⟨bry, hly, _, _⟩ := staleParent_eq_some.1 hw
    rw [walk_step fuel hc (hname ▸ hly)]
    exact ih y bry hzy hly

theorem mem_deleted_of_staleAncestor {deleted : List String} {branches : BranchMap ρ β} :
    ∀ (n : Nat) (x y : String),
      staleAncestor deleted branches (n + 1) x = some y → y ∈ deleted := by
  intro n
  induction n with
  | zero =>
    intro x y h
    rw [staleAncestor_one] at h
    obtain ⟨br, _, hc, hname⟩ := staleParent_eq_some.1 h
    exact hname ▸ ((loopCond_iff _ _).1 hc).2
  | succ n ih =>
    intro x y h
    simp only [staleAncestor] at h
    cases hp : staleParent deleted branches x with
    | none => simp [hp] at h
    | some p =>
      simp only [hp] at h
      exact ih p y (by simpa [staleAncestor] using h)

/-- The resolver uses up its budget as soon as one walk does. -/
theorem resolveAll_outOfFuel (repo : Repo) (db : BranchMap ρ β) (fuel : Nat) :
    ∀ (names : List String), (∀ n ∈ names, n ∈ deletedSet repo db) →
      (∃ y ∈ names, liveParent (deletedSet repo db) db fuel y = .outOfFuel) →
      resolveAll (deletedSet repo db) db fuel names = .outOfFuel := by
  intro names
  induction names with
  | nil => intro _ h; obtain ⟨y, hy, _⟩ := h; simp at hy
  | cons name names ih =>
    intro hsub h
    have h1 := liveParent_ne_nilDeref repo db fuel (hsub name (List.mem_cons_self _ _))
    have hsub2 : ∀ n ∈ names, n ∈ deletedSet repo db :=
      fun n hn => hsub n (List.mem_cons_of_mem _ hn)
    unfold resolveAll
    cases hl : liveParent (deletedSet repo db) db fuel name with
    | done state =>
      obtain ⟨y, hy, hyo⟩ := h
      have hy2 : y ∈ names := by
        rcases List.mem_cons.1 hy with rfl | hy
        · rw [hl] at hyo; cases hyo
        · exact hy
      simp [ih hsub2 ⟨y, hy2, hyo⟩]
    | nilDeref => exact absurd hl h1
    | outOfFuel => simp

/-- C14. Let the snapshot contain a cycle of non-trunk parent edges between stale
branches: `n + 1` advances of the walk lead from the branch `c` back to `c`.  Then every
branch `y` of the cycle is stale and has a record, the walk started at the parent of `y`
has not stopped after `fuel` advances for any `fuel`, and so neither the resolver nor
the run returns, whatever the budget. -/
theorem C14_stale_cycle_diverges (repo : Repo) (db : BranchMap ρ β) (c : String)
    (n : Nat) (hcyc : staleAncestor (deletedSet repo db) db (n + 1) c = some c) :
    (∀ i y, staleAncestor (deletedSet repo db) db i c = some y →
      y ∈ deletedSet repo db ∧
      ∃ br, db.lookup y = some br ∧
        ∀ fuel, walk (deletedSet repo db) db fuel br.Parent = .outOfFuel) ∧
    (∀ fuel, findNonDeletedParents repo db fuel = .outOfFuel) ∧
    (∀ fuel commitFailure,
      RunE (.ok repo) (fun _ => .ok db) commitFailure fuel = .outOfFuel) := by
  have hc : ∀ k, (staleAncestor (deletedSet repo db) db k c).isSome = true :=
    staleAncestor_isSome_of_cycle hcyc
  have hcd : c ∈ deletedSet repo db := mem_deleted_of_staleAncestor n c c hcyc
  have hcycle : ∀ i y, staleAncestor (deletedSet repo db) db i c = some y →
      y ∈ deletedSet repo db ∧
      ∃ br, db.lookup y = some br ∧
        ∀ fuel, walk (deletedSet repo db) db fuel br.Parent = .outOfFuel := by
    intro i y hy
    have hyd : y ∈ deletedSet repo db := by
      cases i with
      | zero =>
        simp only [staleAncestor, Option.some.injEq] at hy
        exact hy ▸ hcd
      | succ i => exact mem_deleted_of_staleAncestor i c y hy
    obtain ⟨br, hl⟩ := lookup_of_mem_deletedSet hyd
    exact ⟨hyd, br, hl, fun fuel =>
      walk_outOfFuel_of_isSome fuel y br (staleAncestor_isSome_of_reach hc hy) hl⟩
  have hres : ∀ fuel, findNonDeletedParents repo db fuel = .outOfFuel := by
    intro fuel
    apply resolveAll_outOfFuel repo db fuel _ (fun _ h => h)
    obtain ⟨_, br, hl, hw⟩ := hcycle 0 c rfl
    exact ⟨c, hcd, by simp [liveParent, hl, hw fuel]⟩
  refine ⟨hcycle, hres, ?_⟩
  intro fuel commitFailure
  simp [RunE, WriteTx.AllBranches, WriteTx.start, hres fuel]

theorem C14_stale_cycle_diverges_witness :
    (∀ i y, staleAncestor (deletedSet (repoWithout []) staleLoop) staleLoop i "P" = some y →
      y ∈ deletedSet (repoWithout []) staleLoop ∧
      ∃ br, staleLoop.lookup y = some br ∧
        ∀ fuel, walk (deletedSet (repoWithout []) staleLoop) staleLoop fuel br.Parent
          = .outOfFuel) ∧
    (∀ fuel, findNonDeletedParents (repoWithout []) staleLoop fuel = .outOfFuel) ∧
    (∀ fuel commitFailure,
      RunE (.ok (repoWithout [])) (fun _ => .ok staleLoop) commitFailure fuel
        = .outOfFuel) :=
  C14_stale_cycle_diverges (repoWithout []) staleLoop "P" 1 (by decide)

/-! ## The calls on the transaction (C15) -/

/-- C15. On every run in which the repository and the database are obtained and the
resolver returns, the calls made on the transaction are, in this order: `AllBranches`,
then one `DeleteBranch` or `SetBranch` per staged operation, then `Commit`, then the
deferred `Abort`.  Leaving the staging calls out, the calls are `AllBranches`, `Commit`
and `Abort`, once each; nothing is staged after `Commit`; and this is so whether
`Commit` fails (the transaction ends aborted) or not (it ends committed). -/
theorem C15_transaction_protocol (repo : Repo) (db : BranchMap ρ β)
    (commitFailure : Option GoError) (fuel : Nat) (np : StateMap ρ)
    (hnp : findNonDeletedParents repo db fuel = .done np) :
    ∃ r tx, RunE (.ok repo) (fun _ => .ok db) commitFailure fuel = .done r ∧
      r.err = commitFailure ∧ r.tx = some tx ∧
      tx.log = TxEvent.AllBranches ::
        (tx.staged.map TxEvent.Stage ++ [TxEvent.Commit, TxEvent.Abort]) ∧
      tx.log.filter (fun e => !e.isStage) =
        [TxEvent.AllBranches, TxEvent.Commit, TxEvent.Abort] ∧
      tx.status = (match commitFailure with
                   | none => TxStatus.Committed
                   | some _ => TxStatus.Aborted) := by
  refine ⟨_, _, RunE_of_resolved (fun _ => .ok db) rfl hnp commitFailure,
    rfl, rfl, rfl, ?_, rfl⟩
  show (TxEvent.AllBranches ::
      ((stagedOps np db).map TxEvent.Stage ++ [TxEvent.Commit, TxEvent.Abort])).filter
        (fun e => !e.isStage) = _
  have h : ((stagedOps np db).map (TxEvent.Stage)).filter
      (fun e : TxEvent ρ β => !e.isStage) = [] := by
    rw [List.filter_eq_nil_iff]
    intro e he
    obtain ⟨op, _, rfl⟩ := List.mem_map.1 he
    simp [TxEvent.isStage]
  simp [List.filter_cons, List.filter_append, h, TxEvent.isStage]

theorem C15_transaction_protocol_witness :
    ∃ r tx, RunE (.ok (repoWithout [])) (fun _ => .ok midStale)
        (some ⟨"conflict"⟩) 0 = .done r ∧
      r.err = some ⟨"conflict"⟩ ∧ r.tx = some tx ∧
      tx.log = TxEvent.AllBranches ::
        (tx.staged.map TxEvent.Stage ++ [TxEvent.Commit, TxEvent.Abort]) ∧
      tx.log.filter (fun e => !e.isStage) =
        [TxEvent.AllBranches, TxEvent.Commit, TxEvent.Abort] ∧
      tx.status = TxStatus.Aborted :=
  C15_transaction_protocol (repoWithout []) midStale (some ⟨"conflict"⟩) 0
    [("B", refState "A")] (by decide)

/-! ## The domain of the resolver's result (C16) -/

/-- C16. When `findNonDeletedParents` returns the map `np`, the keys of `np` are the
names put into `deleted`: a name is a key of `np` if and only if it is the name of a
stale branch of the snapshot.  So the test `_, deleted := newParents[name]` of the
caller succeeds exactly for the stale names, and for an entry of a snapshot with one
entry per name it is the staleness test of that entry. -/
theorem C16_resolver_domain (repo : Repo) (branches : BranchMap ρ β) (fuel : Nat)
    (np : StateMap ρ) (hnp : findNonDeletedParents repo branches fuel = .done np) :
    keys np = deletedSet repo branches ∧
    (∀ name, name ∈ keys np ↔
      ∃ br, (name, br) ∈ branches ∧ isDeleted repo name br = true) ∧
    (∀ name, (np.lookup name).isSome = true ↔
      ∃ br, (name, br) ∈ branches ∧ isDeleted repo name br = true) ∧
    (KeysNodup branches → ∀ name br, (name, br) ∈ branches →
      ((np.lookup name).isSome = true ↔ isDeleted repo name br = true)) := by
  have hk := findNonDeletedParents_keys hnp
  refine ⟨hk, ?_, ?_, ?_⟩
  · intro name
    rw [hk, mem_deletedSet_iff]
  · intro name
    rw [findNonDeletedParents_lookup_isSome hnp, mem_deletedSet_iff]
  · intro hm name br hb
    rw [findNonDeletedParents_lookup_isSome hnp, mem_deletedSet_of_mem repo hm hb]

theorem C16_resolver_domain_witness :
    keys [("A", trunkState "main"), ("B", trunkState "main")] =
      deletedSet (repoWithout []) multiHop ∧
    (∀ name, name ∈ keys [("A", trunkState "main"), ("B", trunkState "main")] ↔
      ∃ br, (name, br) ∈ multiHop ∧ isDeleted (repoWithout []) name br = true) ∧
    (∀ name, (List.lookup name
        [("A", trunkState "main"), ("B", trunkState "main")]).isSome = true ↔
      ∃ br, (name, br) ∈ multiHop ∧ isDeleted (repoWithout []) name br = true) ∧
    (KeysNodup multiHop → ∀ name br, (name, br) ∈ multiHop →
      ((List.lookup name
          [("A", trunkState "main"), ("B", trunkState "main")]).isSome = true ↔
        isDeleted (repoWithout []) name br = true)) :=
  C16_resolver_domain (repoWithout []) multiHop 1
    [("A", trunkState "main"), ("B", trunkState "main")] (by decide)

/-! ## The committed store is a fixpoint (C19) -/

/-- A run that finds nothing stale leaves the store as it is. -/
theorem applyOps_stagedOps_nil {db : BranchMap ρ β} (hm : KeysNodup db)
    (hw : WellKeyed db) : applyOps db (stagedOps ([] : StateMap ρ) db) = db := by
  rw [stagedOps_nil]
  have := applyOps_partition (fun _ : String × Branch ρ β => false)
    (fun p => p.2) (fun _ => rfl) db [] (by simpa using hm) hw
  simpa using this

theorem keysNodup_after_commit {repo : Repo} {db : BranchMap ρ β} {fuel : Nat}
    {np : StateMap ρ} (hm : KeysNodup db) (hw : WellKeyed db)
    (hnp : findNonDeletedParents repo db fuel = .done np) :
    KeysNodup (applyOps db (stagedOps np db)) := by
  rw [applyOps_stagedOps hm hw hnp]
  have : keys ((db.filter (fun p => !isDeleted repo p.1 p.2)).map
      (fun p => (p.1, reparent np p.1 p.2))) =
      keys (db.filter (fun p => !isDeleted repo p.1 p.2)) := by
    simp [keys, List.map_map, Function.comp_def]
  unfold KeysNodup
  rw [this]
  exact List.Nodup.sublist (List.Sublist.map _ (List.filter_sublist _)) hm

theorem wellKeyed_after_commit {repo : Repo} {db : BranchMap ρ β} {fuel : Nat}
    {np : StateMap ρ} (hm : KeysNodup db) (hw : WellKeyed db)
    (hnp : findNonDeletedParents repo db fuel = .done np) :
    WellKeyed (applyOps db (stagedOps np db)) := by
  rw [applyOps_stagedOps hm hw hnp]
  intro q hq
  obtain ⟨p, hp, rfl⟩ := List.mem_map.1 hq
  show (reparent np p.1 p.2).Name = p.1
  rw [reparent_Name]
  exact hw p (List.mem_filter.1 hp).1

/-- C19. Take a snapshot (one entry per name, every record kept under its own name) on
which a first run returns after a successful commit, and run tidy again on the store
that the first run left, with the same repository answers: the second run returns for
every budget, commits, and leaves a store equal to the one it started from, entry by
entry. -/
theorem C19_store_fixpoint (repo : Repo) (db : BranchMap ρ β) (fuel : Nat)
    (r1 : RunResult ρ β) (tx1 : WriteTx ρ β) (hm : KeysNodup db) (hw : WellKeyed db)
    (h1 : RunE (.ok repo) (fun _ => .ok db) none fuel = .done r1)
    (htx : r1.tx = some tx1) (fuel2 : Nat) :
    ∃ r2 tx2, RunE (.ok repo) (fun _ => .ok tx1.store) none fuel2 = .done r2 ∧
      r2.err = none ∧ r2.tx = some tx2 ∧ tx2.status = TxStatus.Committed ∧
      tx2.store = tx1.store := by
  obtain ⟨np, hnp, rfl⟩ := RunE_done_inv (fun _ => .ok db) rfl h1
  have e : tx1.store = applyOps db (stagedOps np db) := by
    simp only [resultOf, Option.some.injEq] at htx
    rw [← htx]
  have hd : deletedSet repo tx1.store = [] := by
    rw [e]; exact deletedSet_after_commit hm hw hnp
  have hnp2 := findNonDeletedParents_of_no_deleted hd fuel2
  refine ⟨_, _, RunE_of_resolved (fun _ => .ok tx1.store) rfl hnp2 none,
    rfl, rfl, rfl, ?_⟩
  show applyOps tx1.store (stagedOps ([] : StateMap ρ) tx1.store) = tx1.store
  apply applyOps_stagedOps_nil
  · rw [e]; exact keysNodup_after_commit hm hw hnp
  · rw [e]; exact wellKeyed_after_commit hm hw hnp

theorem C19_store_fixpoint_witness :
    ∃ r2 tx2, RunE (.ok (repoWithout []))
        (fun _ => .ok [entry "A" (trunkState "main") "", entry "C" (refState "A") ""])
        none 0 = .done r2 ∧
      r2.err = none ∧ r2.tx = some tx2 ∧ tx2.status = TxStatus.Committed ∧
      tx2.store = [entry "A" (trunkState "main") "", entry "C" (refState "A") ""] :=
  C19_store_fixpoint (repoWithout []) midStale 0
    (resultOf midStale [("B", refState "A")] none)
    { status := .Committed
      store := [entry "A" (trunkState "main") "", entry "C" (refState "A") ""]
      staged := stagedOps [("B", refState "A")] midStale
      log := TxEvent.AllBranches ::
        ((stagedOps [("B", refState "A")] midStale).map TxEvent.Stage ++
          [.Commit, .Abort]) }
    (by decide) (by decide) (by decide) (by decide) 0

/-! ## Order independence (C18) -/

theorem keysNodup_of_perm {α : Type} {m m2 : List (String × α)} (hp : m2.Perm m)
    (hm : KeysNodup m) : KeysNodup m2 :=
  ((hp.map Prod.fst).nodup_iff).2 hm

/-- A lookup does not depend on the order of the entries. -/
theorem lookup_perm {α : Type} {m m2 : List (String × α)} (hp : m2.Perm m)
    (hm : KeysNodup m) (k : String) : m2.lookup k = m.lookup k := by
  cases h : m.lookup k with
  | none =>
    rw [lookup_eq_none_iff] at h ⊢
    intro hk
    exact h ((hp.map Prod.fst).mem_iff.1 hk)
  | some v =>
    exact lookup_of_mem (keysNodup_of_perm hp hm) (hp.mem_iff.2 (mem_of_lookup h))

theorem deletedSet_perm (repo : Repo) {db db2 : BranchMap ρ β} (hp : db2.Perm db) :
    (deletedSet repo db2).Perm (deletedSet repo db) :=
  (hp.filter _).map Prod.fst

theorem loopCond_congr {d d2 : List String} (hd : ∀ x, x ∈ d2 ↔ x ∈ d)
    (st : BranchState ρ) : loopCond d2 st = loopCond d st := by
  have : d2.contains st.Name = d.contains st.Name := by
    rw [Bool.eq_iff_iff]
    simpa using hd st.Name
  unfold loopCond
  rw [this]

/-- A walk depends on `deleted` and `branches` only through their lookups. -/
theorem walk_congr {d d2 : List String} {db db2 : BranchMap ρ β}
    (hd : ∀ x, x ∈ d2 ↔ x ∈ d) (hl : ∀ k, db2.lookup k = db.lookup k) :
    ∀ (fuel : Nat) (st : BranchState ρ), walk d2 db2 fuel st = walk d db fuel st := by
  intro fuel
  induction fuel with
  | zero => intro st; simp [walk, loopCond_congr hd]
  | succ n ih =>
    intro st
    simp only [walk, loopCond_congr hd, hl]
    cases db.lookup st.Name with
    | none => rfl
    | some br => simp [ih]

theorem liveParent_congr {d d2 : List String} {db db2 : BranchMap ρ β}
    (hd : ∀ x, x ∈ d2 ↔ x ∈ d) (hl : ∀ k, db2.lookup k = db.lookup k)
    (fuel : Nat) (name : String) :
    liveParent d2 db2 fuel name = liveParent d db fuel name := by
  simp only [liveParent, hl]
  cases db.lookup name with
  | none => rfl
  | some br => simp [walk_congr hd hl]

/-- The resolver's map does not depend on the order in which the names of `deleted`
are visited, nor on the order of `deleted` and of `branches`. -/
theorem resolveAll_order {d d2 : List String} {db db2 : BranchMap ρ β} {fuel : Nat}
    {np : StateMap ρ} (hd : ∀ x, x ∈ d2 ↔ x ∈ d) (hl : ∀ k, db2.lookup k = db.lookup k)
    (hnp : resolveAll d db fuel d = .done np) (names : List String)
    (hn : ∀ x, x ∈ names ↔ x ∈ d) :
    ∃ np2, resolveAll d2 db2 fuel names = .done np2 ∧
      ∀ name, np2.lookup name = np.lookup name := by
  have hall : ∀ n ∈ names, ∃ s, liveParent d2 db2 fuel n = .done s := by
    intro n hmem
    obtain ⟨s, hs, _⟩ := resolveAll_lookup hnp n ((hn n).1 hmem)
    exact ⟨s, by rw [liveParent_congr hd hl]; exact hs⟩
  obtain ⟨np2, hnp2⟩ := resolveAll_done_of_forall hall
  refine ⟨np2, hnp2, ?_⟩
  intro name
  by_cases hmem : name ∈ names
  · obtain ⟨s, hs1, hs2⟩ := resolveAll_lookup hnp name ((hn name).1 hmem)
    obtain ⟨s2, ht1, ht2⟩ := resolveAll_lookup hnp2 name hmem
    rw [liveParent_congr hd hl, hs1] at ht1
    cases ht1
    rw [hs2, ht2]
  · have h1 : np2.lookup name = none := by
      rw [lookup_eq_none_iff, resolveAll_keys hnp2]; exact hmem
    have h2 : np.lookup name = none := by
      rw [lookup_eq_none_iff, resolveAll_keys hnp]
      exact fun h => hmem ((hn name).2 h)
    rw [h1, h2]

theorem reparent_congr {np np2 : StateMap ρ} (h : ∀ name, np2.lookup name = np.lookup name)
    (name : String) (br : Branch ρ β) : reparent np2 name br = reparent np name br := by
  simp [reparent, h]

/-- The staged operations depend on the resolver's map only through its lookups. -/
theorem stagedOps_congr {np np2 : StateMap ρ}
    (h : ∀ name, np2.lookup name = np.lookup name) (db : BranchMap ρ β) :
    stagedOps np2 db = stagedOps np db := by
  unfold stagedOps rewriteParents
  rw [List.map_map, List.map_map]
  apply List.map_congr_left
  intro p _
  simp [opFor, h, reparent_congr h]

theorem stagedOps_perm (np : StateMap ρ) {db db2 : BranchMap ρ β} (hp : db2.Perm db) :
    (stagedOps np db2).Perm (stagedOps np db) :=
  (hp.map _).map _

/-- C18. Take a snapshot with one entry per name on which the resolver returns the map
`np`, and let the loops visit their maps in any orders: the classification loop (line
92) visits the entries in the order `dbA`, the resolution loop (line 102) visits the
names of `deleted` in the order `names`, and the loops of lines 49 and 60 visit the
entries in the order `dbC`.  Then the resolver returns a map with the same value at
every name, the staged operations are the same up to their order (the same deletions,
the same record written for every surviving branch), and `nDeleted` is the same.  In
particular the run on the snapshot with its entries permuted returns, with the same
count, error and message, and the same staged operations up to order. -/
theorem C18_order_independence (repo : Repo) (db : BranchMap ρ β) (fuel : Nat)
    (np : StateMap ρ) (commitFailure : Option GoError) (dbA dbC : BranchMap ρ β)
    (names : List String) (hm : KeysNodup db)
    (hnp : findNonDeletedParents repo db fuel = .done np)
    (hA : dbA.Perm db) (hN : names.Perm (deletedSet repo dbA)) (hC : dbC.Perm db) :
    (∃ np2, resolveAll (deletedSet repo dbA) dbA fuel names = .done np2 ∧
      (∀ name, np2.lookup name = np.lookup name) ∧
      (stagedOps np2 dbC).Perm (stagedOps np db) ∧
      (∀ a, TxOp.DeleteBranch a ∈ stagedOps np2 dbC ↔
        TxOp.DeleteBranch a ∈ stagedOps np db) ∧
      (∀ b, TxOp.SetBranch b ∈ stagedOps np2 dbC ↔ TxOp.SetBranch b ∈ stagedOps np db) ∧
      (∀ tx, (stage np2 tx (rewriteParents np2 dbC)).2 =
        (stage np tx (rewriteParents np db)).2)) ∧
    (∃ r rA txr txA, RunE (.ok repo) (fun _ => .ok db) commitFailure fuel = .done r ∧
      RunE (.ok repo) (fun _ => .ok dbA) commitFailure fuel = .done rA ∧
      r.tx = some txr ∧ rA.tx = some txA ∧ txA.staged.Perm txr.staged ∧
      rA.nDeleted = r.nDeleted ∧ rA.err = r.err ∧ rA.output = r.output) := by
  have hdA : ∀ x, x ∈ deletedSet repo dbA ↔ x ∈ deletedSet repo db :=
    fun x => (deletedSet_perm repo hA).mem_iff
  have hlA : ∀ k, dbA.lookup k = db.lookup k := lookup_perm hA hm
  have hcount : ∀ {ops ops2 : List (TxOp ρ β)}, ops2.Perm ops →
      (ops2.filter TxOp.isDelete).length = (ops.filter TxOp.isDelete).length :=
    fun h => (h.filter _).length_eq
  refine ⟨?_, ?_⟩
  · obtain ⟨np2, hnp2, hlook⟩ := resolveAll_order hdA hlA hnp names
      (fun x => (hN.mem_iff).trans (hdA x))
    have hperm : (stagedOps np2 dbC).Perm (stagedOps np db) := by
      rw [stagedOps_congr hlook]
      exact stagedOps_perm np hC
    refine ⟨np2, hnp2, hlook, hperm, fun a => hperm.mem_iff, fun b => hperm.mem_iff, ?_⟩
    intro tx
    rw [stage_eq, stage_eq]
    exact hcount hperm
  · obtain ⟨npA, hnpA, hlook⟩ := resolveAll_order hdA hlA hnp (deletedSet repo dbA) hdA
    have hperm : (stagedOps npA dbA).Perm (stagedOps np db) := by
      rw [stagedOps_congr hlook]
      exact stagedOps_perm np hA
    have hn := hcount hperm
    refine ⟨_, _, _, _, RunE_of_resolved (fun _ => .ok db) rfl hnp commitFailure,
      RunE_of_resolved (fun _ => .ok dbA) rfl hnpA commitFailure, rfl, rfl, hperm, ?_,
      rfl, ?_⟩
    · show some ((stagedOps npA dbA).filter TxOp.isDelete).length =
        some ((stagedOps np db).filter TxOp.isDelete).length
      rw [hn]
    · simp only [resultOf]
      rw [hn]

theorem C18_order_independence_witness :
    (∃ np2, resolveAll (deletedSet (repoWithout []) multiHopReordered) multiHopReordered
        1 ["B", "A"] = .done np2 ∧
      (∀ name, np2.lookup name =
        List.lookup name [("A", trunkState "main"), ("B", trunkState "main")]) ∧
      (stagedOps np2 multiHopReordered).Perm
        (stagedOps [("A", trunkState "main"), ("B", trunkState "main")] multiHop) ∧
      (∀ a, TxOp.DeleteBranch a ∈ stagedOps np2 multiHopReordered ↔
        TxOp.DeleteBranch a ∈
          stagedOps [("A", trunkState "main"), ("B", trunkState "main")] multiHop) ∧
      (∀ b, TxOp.SetBranch b ∈ stagedOps np2 multiHopReordered ↔
        TxOp.SetBranch b ∈
          stagedOps [("A", trunkState "main"), ("B", trunkState "main")] multiHop) ∧
      (∀ tx, (stage np2 tx (rewriteParents np2 multiHopReordered)).2 =
        (stage [("A", trunkState "main"), ("B", trunkState "main")] tx
          (rewriteParents [("A", trunkState "main"), ("B", trunkState "main")]
            multiHop)).2)) ∧
    (∃ r rA txr txA,
      RunE (.ok (repoWithout [])) (fun _ => .ok multiHop) none 1 = .done r ∧
      RunE (.ok (repoWithout [])) (fun _ => .ok multiHopReordered) none 1 = .done rA ∧
      r.tx = some txr ∧ rA.tx = some txA ∧ txA.staged.Perm txr.staged ∧
      rA.nDeleted = r.nDeleted ∧ rA.err = r.err ∧ rA.output = r.output) :=
  C18_order_independence (repoWithout []) multiHop 1
    [("A", trunkState "main"), ("B", trunkState "main")] none
    multiHopReordered multiHopReordered ["B", "A"] (by decide) (by decide)
    (by decide) (by decide) (by decide)

/-! ## Delete-or-write partition (C7) -/

theorem liveParent_fuel_mono {deleted : List String} {branches : BranchMap ρ β}
    {fuel : Nat} (k : Nat) {name : String} {r : BranchState ρ}
    (h : liveParent deleted branches fuel name = .done r) :
    liveParent deleted branches (fuel + k) name = .done r := by
  unfold liveParent at h ⊢
  cases hl : branches.lookup name with
  | none => simp [hl] at h
  | some br =>
    simp only [hl] at h ⊢
    exact walk_fuel_mono k h

/-- A larger budget does not change what the resolver returns. -/
theorem resolveAll_fuel_mono {deleted : List String} {branches : BranchMap ρ β}
    {fuel : Nat} (k : Nat) :
    ∀ {names : List String} {np : StateMap ρ},
      resolveAll deleted branches fuel names = .done np →
      resolveAll deleted branches (fuel + k) names = .done np := by
  intro names
  induction names with
  | nil => intro np h; simpa [resolveAll] using h
  | cons name names ih =>
    intro np h
    obtain ⟨state, m, h1, h2, rfl⟩ := resolveAll_done_cons h
    simp [resolveAll, liveParent_fuel_mono k h1, ih h2]

/-- Without a cycle between stale branches the resolver returns, with a budget of as
many advances as there are stale branches. -/
theorem findNonDeletedParents_done_of_noStaleCycle {repo : Repo} {db : BranchMap ρ β}
    (hcyc : NoStaleCycle (deletedSet repo db) db) :
    ∃ np, findNonDeletedParents repo db (deletedSet repo db).length = .done np := by
  apply resolveAll_done_of_forall
  intro s hs
  obtain ⟨br, hl⟩ := lookup_of_mem_deletedSet hs
  obtain ⟨r, hr⟩ := walk_terminates_of_visited hcyc (deletedSet repo db).length
    [s] s br hl (List.nodup_singleton s)
    (by intro v hv; rw [List.mem_singleton.1 hv]; exact hs)
    (by intro v hv; rw [List.mem_singleton.1 hv]; exact ⟨0, rfl⟩)
    (by simp only [List.length_singleton]; omega)
  exact ⟨r, by simp [liveParent, hl, hr]⟩

/-- With a cycle between stale branches the resolver uses up every budget. -/
theorem findNonDeletedParents_outOfFuel_of_cycle {repo : Repo} {db : BranchMap ρ β}
    {c : String} {n : Nat}
    (hcyc : staleAncestor (deletedSet repo db) db (n + 1) c = some c) (fuel : Nat) :
    findNonDeletedParents repo db fuel = .outOfFuel := by
  have hcd : c ∈ deletedSet repo db := mem_deleted_of_staleAncestor n c c hcyc
  obtain ⟨br, hl⟩ := lookup_of_mem_deletedSet hcd
  have hw := walk_outOfFuel_of_isSome fuel c br (staleAncestor_isSome_of_cycle hcyc) hl
  apply resolveAll_outOfFuel repo db fuel _ (fun _ h => h)
  exact ⟨c, hcd, by simp [liveParent, hl, hw]⟩

/-- C7, as stated, fails.  `staleLoop` is a snapshot with one entry per name and every
record kept under its own name, in which the merged branches `P` and `Q` are each
other's parent.  The run on it never gets to line 59: it has not returned after any
budget of advances, whatever the commit would answer, so it stages no operation for
any of the three branches of the snapshot and the store is never written. -/
theorem C7_nothing_staged_on_stale_cycle :
    KeysNodup staleLoop ∧ WellKeyed staleLoop ∧
    (∀ fuel, findNonDeletedParents (repoWithout []) staleLoop fuel = .outOfFuel) ∧
    (∀ fuel commitFailure,
      RunE (.ok (repoWithout [])) (fun _ => .ok staleLoop) commitFailure fuel
        = .outOfFuel) ∧
    ¬ ∃ fuel r, RunE (.ok (repoWithout [])) (fun _ => .ok staleLoop) none fuel = .done r := by
  have hres : ∀ fuel, findNonDeletedParents (repoWithout []) staleLoop fuel = .outOfFuel :=
    fun fuel => @findNonDeletedParents_outOfFuel_of_cycle _ _ (repoWithout []) staleLoop
      "P" 1 (by decide) fuel
  have hrun : ∀ fuel commitFailure,
      RunE (.ok (repoWithout [])) (fun _ => .ok staleLoop) commitFailure fuel
        = .outOfFuel := by
    intro fuel commitFailure
    simp [RunE, WriteTx.AllBranches, WriteTx.start, hres fuel]
  refine ⟨by decide, by decide, hres, hrun, ?_⟩
  rintro ⟨fuel, r, h⟩
  rw [hrun fuel none] at h
  cases h

/-- C7, amended.  On a snapshot (one entry per name, every record kept under its own
name) whose parent edges between stale branches contain no cycle, the resolver returns
a map `np` with a budget of as many advances as there are stale branches, and with
every budget at least that large the run returns without error, having staged exactly
one operation per entry of the snapshot, in iteration order: `DeleteBranch(name)` when
the branch is stale and `SetBranch` of the (possibly rewritten) record otherwise; the
names the operations act on are exactly the names of the snapshot; and after the
successful commit the names in the store are exactly the names of the non-stale
branches of the snapshot. -/
theorem C7_delete_or_write_partition (repo : Repo) (db : BranchMap ρ β)
    (hm : KeysNodup db) (hw : WellKeyed db)
    (hcyc : NoStaleCycle (deletedSet repo db) db) :
    ∃ np, findNonDeletedParents repo db (deletedSet repo db).length = .done np ∧
      ∀ fuel, (deletedSet repo db).length ≤ fuel →
        ∃ r tx, RunE (.ok repo) (fun _ => .ok db) none fuel = .done r ∧
          r.err = none ∧ r.tx = some tx ∧
          tx.staged = db.map (fun p =>
            if isDeleted repo p.1 p.2 = true then TxOp.DeleteBranch p.1
            else TxOp.SetBranch (reparent np p.1 p.2)) ∧
          tx.staged.map TxOp.target = keys db ∧
          tx.status = TxStatus.Committed ∧
          keys tx.store = keys (db.filter (fun p => !isDeleted repo p.1 p.2)) ∧
          (∀ name, name ∈ keys tx.store ↔
            name ∈ keys db ∧ name ∉ deletedSet repo db) := by
  obtain ⟨np, hnp⟩ := findNonDeletedParents_done_of_noStaleCycle hcyc
  refine ⟨np, hnp, ?_⟩
  intro fuel hfuel
  have hnp2 : findNonDeletedParents repo db fuel = .done np := by
    have := resolveAll_fuel_mono (fuel - (deletedSet repo db).length) hnp
    have e : (deletedSet repo db).length + (fuel - (deletedSet repo db).length) = fuel := by
      omega
    rw [e] at this
    exact this
  exact partition_of_resolved repo db fuel np hm hw hnp2

theorem C7_delete_or_write_partition_witness :
    ∃ np, findNonDeletedParents (repoWithout []) multiHop
        (deletedSet (repoWithout []) multiHop).length = .done np ∧
      ∀ fuel, (deletedSet (repoWithout []) multiHop).length ≤ fuel →
        ∃ r tx, RunE (.ok (repoWithout [])) (fun _ => .ok multiHop) none fuel = .done r ∧
          r.err = none ∧ r.tx = some tx ∧
          tx.staged = multiHop.map (fun p =>
            if isDeleted (repoWithout []) p.1 p.2 = true then TxOp.DeleteBranch p.1
            else TxOp.SetBranch (reparent np p.1 p.2)) ∧
          tx.staged.map TxOp.target = keys multiHop ∧
          tx.status = TxStatus.Committed ∧
          keys tx.store =
            keys (multiHop.filter (fun p => !isDeleted (repoWithout []) p.1 p.2)) ∧
          (∀ name, name ∈ keys tx.store ↔
            name ∈ keys multiHop ∧ name ∉ deletedSet (repoWithout []) multiHop) :=
  C7_delete_or_write_partition (repoWithout []) multiHop (by decide) (by decide)
    (noStaleCycle_of_acyclic ⟨multiHopRank, by decide⟩ _)

end StackTidy
